import Mathlib

/-!
Verification of the distance-vector router core in dv_router.py.

The Python dictionaries (peer tables, forwarding table, advertised-state
history) are embedded as insertion-ordered association lists, matching
the insertion-order iteration and in-place update semantics the source
relies on.  The record types imported by the source from dv_utils
(PeerTableEntry, ForwardingTableEntry) are not under src/, so they are
modelled from the specification's data-model section as plain records.
All handlers are pure functions from a router state to a router state
together with the list of transmitted route packets, in transmission
order; a transmitted packet is represented as (out-port, destination,
advertised cost).
-/

namespace DV

/-- Association-list lookup: first entry whose key matches, mirroring a
Python dict lookup (keys are unique in every dict the source builds). -/
def lookupA {α β : Type} [DecidableEq α] : List (α × β) → α → Option β
  | [], _ => none
  | (k, v) :: rest, a => if k = a then some v else lookupA rest a

/-- Association-list update, mirroring Python dict assignment: an existing
key keeps its position and gets the new value, a new key is appended. -/
def insertA {α β : Type} [DecidableEq α] : List (α × β) → α → β → List (α × β)
  | [], a, b => [(a, b)]
  | (k, v) :: rest, a, b =>
    if k = a then (a, b) :: rest else (k, v) :: insertA rest a b

/-- Association-list deletion, mirroring Python dict del. -/
def eraseA {α β : Type} [DecidableEq α] (l : List (α × β)) (a : α) : List (α × β) :=
  l.filter (fun p => p.1 ≠ a)

/-- Lookup with a default, used where the source indexes a dict under an
invariant that guarantees the key is present. -/
def lookupD {α β : Type} [DecidableEq α] (l : List (α × β)) (a : α) (d : β) : β :=
  (lookupA l a).getD d

/-- Removal of the first occurrence of an element, mirroring Python
list.remove. -/
def removeFirst {α : Type} [DecidableEq α] : List α → α → List α
  | [], _ => []
  | x :: rest, a => if x = a then rest else x :: removeFirst rest a

/-- We define infinity as a distance of 16 (dv_router.py line 8). -/
def INFINITY : Int := 16

/-- A route should time out after at least 15 seconds (dv_router.py line 11). -/
def ROUTE_TTL : Int := 15

/-- Modelled from the spec: dv_utils.PeerTableEntry, one fact learned from
one neighbor, a plain record of destination, latency and expiry.  The
expiry is either a concrete timestamp or the never-expires sentinel
FOREVER, modelled as the none case of an Option. -/
structure PeerTableEntry where
  dst : String
  latency : Int
  expire_time : Option Int
deriving DecidableEq

/-- The never-expires sentinel for statically attached hosts. -/
def PeerTableEntry.FOREVER : Option Int := none

/-- Modelled from the spec: dv_utils.ForwardingTableEntry, the globally
selected best route for a destination.  The source also indexes it like a
tuple: index 0 is dst, index 1 is port, index 2 is latency. -/
structure ForwardingTableEntry where
  dst : String
  port : Nat
  latency : Int
deriving DecidableEq

/-- Per-port mapping destination to PeerTableEntry (dv_utils.PeerTable). -/
abbrev PeerTable := List (String × PeerTableEntry)

/-- Mapping destination to ForwardingTableEntry (dv_utils.ForwardingTable). -/
abbrev ForwardingTable := List (String × ForwardingTableEntry)

/-- The advertised-state cache: maps (port, destination) to the last
ForwardingTableEntry recorded when advertising on that port. -/
abbrev History := List ((Nat × String) × ForwardingTableEntry)

/-- A transmitted route advertisement: (out-port, destination, cost). -/
abbrev Sent := Nat × String × Int

/-- The mutable state of one DVRouter instance (dv_router.py lines 19 to 45).
The source also initializes a removedHostKeys list, but never reads or
writes it afterwards, so it is omitted.  POISON_MODE is a configuration
flag on the instance. -/
structure Router where
  poison_mode : Bool
  link_latency : List (Nat × Int)
  peer_tables : List (Nat × PeerTable)
  forwarding_table : ForwardingTable
  history : History
  removedHosts : List (String × Nat)
  emptyFwdTableList : List (Nat × String)
  poisonedHosts : List (String × Nat)
  removedFromPoisonedHosts : List (String × Nat)
  trickledHosts : List (String × Nat)
deriving DecidableEq

/-- One iteration of the inner loop of update_forwarding_table
(dv_router.py lines 137 to 156) for a fixed port: fold one peer-table
item into the forwarding table under construction. -/
def uftStep (r : Router) (port : Nat) (ft : ForwardingTable)
    (hv : String × PeerTableEntry) : ForwardingTable :=
  let host := hv.1
  let nonempty : Bool :=
    match lookupA r.peer_tables port with
    | some pt => !pt.isEmpty
    | none => false
  let base : Int :=
    if nonempty then lookupD r.link_latency port 0 + hv.2.latency
    else lookupD r.link_latency port 0
  let currCost : Int := if base > INFINITY then INFINITY else base
  match lookupA ft host with
  | some prev =>
    if currCost < prev.latency then insertA ft host ⟨host, port, currCost⟩ else ft
  | none => insertA ft host ⟨host, port, currCost⟩

/-- update_forwarding_table (dv_router.py lines 126 to 156): clear the
forwarding table, then fold every entry of every peer table into it. -/
def update_forwarding_table (r : Router) : Router :=
  { r with forwarding_table :=
      r.peer_tables.foldl (fun ft pp => pp.2.foldl (uftStep r pp.1) ft) [] }

/-- handle_data_packet (dv_router.py lines 159 to 178).  The payload of a
data packet is irrelevant to the router, so a packet is represented by its
destination; the result is the unchanged state together with the list of
(destination, out-port) forwards (empty or a single element). -/
def handle_data_packet (r : Router) (dst : String) (in_port : Nat) :
    Router × List (String × Nat) :=
  match lookupA r.forwarding_table dst with
  | none => (r, [])
  | some e =>
    if e.latency ≥ INFINITY then (r, [])
    else if e.port = in_port then (r, [])
    else (r, [(dst, e.port)])

/-- The send-with-suppression pattern of the main loop of send_routes:
when force is false, transmit only if the history for (port, key) is
absent or disagrees in destination or latency with what is about to be
sent; on transmission record a ForwardingTableEntry(key, port, cost) in
the history (dv_router.py lines 195 to 231). -/
def sendIf (st : History × List Sent) (port : Nat) (key : String)
    (cost : Int) (force : Bool) : History × List Sent :=
  if force = false then
    match lookupA st.1 (port, key) with
    | none =>
      (insertA st.1 (port, key) ⟨key, port, cost⟩, st.2 ++ [(port, key, cost)])
    | some v =>
      if v.dst ≠ key ∨ v.latency ≠ cost then
        (insertA st.1 (port, key) ⟨key, port, cost⟩, st.2 ++ [(port, key, cost)])
      else st
  else (insertA st.1 (port, key) ⟨key, port, cost⟩, st.2 ++ [(port, key, cost)])

/-- One iteration of the main loop of send_routes (dv_router.py lines 189
to 231) for a fixed port and one forwarding-table item. -/
def mainStep (poison force : Bool) (port : Nat) (st : History × List Sent)
    (ki : String × ForwardingTableEntry) : History × List Sent :=
  let key := ki.1
  let item := ki.2
  let fwdPorts := item.port
  if poison then
    if port = fwdPorts then sendIf st port key INFINITY force
    else sendIf st port key item.latency force
  else if port ≠ fwdPorts then sendIf st port key item.latency force
  else st

/-- The main loop of send_routes: for every active port, for every
forwarding-table item, advertise with split horizon (poison reverse when
POISON_MODE), threading the history and the transmission list. -/
def mainLoop (r : Router) (force : Bool) : History × List Sent :=
  r.peer_tables.foldl
    (fun st pp => r.forwarding_table.foldl (mainStep r.poison_mode force pp.1) st)
    (r.history, [])

/-- The mutable state threaded through the removed-hosts pass of
send_routes: the history, the emptyFwdTableList, the local tempList and
the accumulated transmissions. -/
structure PassSt where
  history : History
  emptyFwdTableList : List (Nat × String)
  tempList : List (Nat × String)
  sends : List Sent
deriving DecidableEq

/-- The advertised-state cache agrees with what the main advertisement
loop would send for one port and one forwarding item: in poison mode the
poisoned reverse entry records INFINITY, and on any other port the entry
records the item latency.  This is the state in which a second non-forced
pass is fully suppressed. -/
def histGood (poison : Bool) (h : History) (q : Nat)
    (kv : String × ForwardingTableEntry) : Prop :=
  (poison = true → q = kv.2.port →
    ∃ v, lookupA h (q, kv.1) = some v ∧ v.dst = kv.1 ∧ v.latency = INFINITY) ∧
  (q ≠ kv.2.port →
    ∃ v, lookupA h (q, kv.1) = some v ∧ v.dst = kv.1 ∧
      v.latency = kv.2.latency)

/-- The emptyFwdTableList maintenance block of the removed-hosts pass
(dv_router.py lines 248 to 252 and 262 to 266): executed when the
forwarding table is empty; records (port, host) once, and on meeting an
already-recorded pair executes a break (the returned Bool). -/
def efBlock (fwd : ForwardingTable) (port : Nat) (host : String)
    (st : PassSt) : PassSt × Bool :=
  if fwd.isEmpty then
    if (lookupA st.history (port, host)).isSome ∧
        (port, host) ∉ st.emptyFwdTableList then
      ({ st with emptyFwdTableList := st.emptyFwdTableList ++ [(port, host)] },
        false)
    else if (port, host) ∈ st.emptyFwdTableList then (st, true)
    else (st, false)
  else (st, false)

/-- The forwarding-table scan of the removed-hosts pass when the recorded
history latency is not INFINITY (dv_router.py lines 254 to 258). -/
def maintScanA (port : Nat) (host : String) (st : PassSt)
    (kv : String × ForwardingTableEntry) : PassSt :=
  if host ≠ kv.1 ∧ (lookupA st.history (port, host)).isSome then
    { st with history := eraseA st.history (port, host) }
  else if host = kv.1 then { st with tempList := st.tempList ++ [(port, kv.1)] }
  else st

/-- The forwarding-table scan of the removed-hosts pass when the recorded
history latency is INFINITY (dv_router.py lines 268 to 276). -/
def maintScanB (rfp : List (String × Nat)) (port : Nat) (host : String)
    (st : PassSt) (kv : String × ForwardingTableEntry) : PassSt :=
  if kv.1 = host ∧ kv.2.port = port then
    { st with tempList := st.tempList ++ [(port, kv.1)] }
  else if (lookupA st.history (port, host)).isSome then
    if (host, port) ∈ rfp then st
    else { st with history := eraseA st.history (port, host) }
  else st

/-- The whole force-mode maintenance block of the removed-hosts pass
(dv_router.py lines 243 to 276). -/
def maintBlock (fwd : ForwardingTable) (rfp : List (String × Nat))
    (port : Nat) (host : String) (st : PassSt) : PassSt × Bool :=
  match lookupA st.history (port, host) with
  | none => (st, false)
  | some val =>
    if val.latency ≠ INFINITY then
      let ef := efBlock fwd port host st
      if ef.2 then ef
      else (fwd.foldl (maintScanA port host) ef.1, false)
    else
      let ef := efBlock fwd port host st
      if ef.2 then ef
      else (fwd.foldl (maintScanB rfp port host) ef.1, false)

/-- The guarded transmission of (host, INFINITY) at the bottom of the
removed-hosts pass (dv_router.py lines 278 to 291). -/
def sendBlock (rfp tr : List (String × Nat)) (port : Nat) (host : String)
    (st : PassSt) : PassSt :=
  if (lookupA st.history (port, host)).isNone ∨ ¬st.emptyFwdTableList.isEmpty then
    if (port, host) ∈ st.tempList then st
    else if (host, port) ∈ rfp then st
    else if (host, port) ∈ tr then st
    else { st with
            history := insertA st.history (port, host) ⟨host, port, INFINITY⟩,
            sends := st.sends ++ [(port, host, INFINITY)] }
  else st

/-- The body of the port loop of the removed-hosts pass of send_routes
(dv_router.py lines 236 to 291) for one withdrawn (host, port) pair rem
and one active port.  The returned Bool is true when the source executes
a break out of the port loop. -/
def remPortStep (force : Bool) (fwd : ForwardingTable)
    (poisonedHosts removedFromPoisonedHosts trickledHosts : List (String × Nat))
    (rem : String × Nat) (port : Nat) (st : PassSt) : PassSt × Bool :=
  let host := rem.1
  if force = false ∧ rem ∉ poisonedHosts then (st, true)
  else
    let maint :=
      if force = true then
        maintBlock fwd removedFromPoisonedHosts port host st
      else (st, false)
    if maint.2 then (maint.1, true)
    else (sendBlock removedFromPoisonedHosts trickledHosts port host maint.1,
      false)

/-- The port loop of the removed-hosts pass for one rem pair, stopping at
a break. -/
def remPortsLoop (force : Bool) (fwd : ForwardingTable)
    (poisonedHosts removedFromPoisonedHosts trickledHosts : List (String × Nat))
    (rem : String × Nat) : List Nat → PassSt → PassSt
  | [], st => st
  | p :: rest, st =>
    let sb := remPortStep force fwd poisonedHosts removedFromPoisonedHosts
      trickledHosts rem p st
    if sb.2 then sb.1
    else remPortsLoop force fwd poisonedHosts removedFromPoisonedHosts
      trickledHosts rem rest sb.1

/-- The outer loop of the removed-hosts pass over all withdrawn pairs. -/
def remLoop (force : Bool) (fwd : ForwardingTable)
    (poisonedHosts removedFromPoisonedHosts trickledHosts : List (String × Nat))
    (ports : List Nat) : List (String × Nat) → PassSt → PassSt
  | [], st => st
  | rem :: rest, st =>
    remLoop force fwd poisonedHosts removedFromPoisonedHosts trickledHosts ports
      rest
      (remPortsLoop force fwd poisonedHosts removedFromPoisonedHosts
        trickledHosts rem ports st)

theorem length_removeFirst_of_mem {α : Type} [DecidableEq α] {l : List α} {a : α}
    (h : a ∈ l) : (removeFirst l a).length + 1 = l.length := by
  induction l with
  | nil => cases h
  | cons x rest ih =>
    simp only [removeFirst]
    by_cases hx : x = a
    · simp [hx]
    · have hr : a ∈ rest := by
        cases h with
        | head => exact absurd rfl hx
        | tail _ h2 => exact h2
      simp only [if_neg hx, List.length_cons, ih hr]

/-- The final poisoned-hosts cleanup of send_routes (dv_router.py lines
293 to 298).  The source iterates over poisonedHosts by index while
removing elements from it, so removing the element at the current index
skips the element that slid into its place; this index-based recursion
reproduces that behavior exactly.  The first argument is fuel for
structural recursion: the index grows by one per step while the list
never grows, so the iteration performs at most (initial length) + 1
steps and the fuel send_routes supplies is never exhausted. -/
def finalLoop (removed : List (String × Nat)) :
    Nat → Nat → List (String × Nat) → List (String × Nat) →
    List (String × Nat) × List (String × Nat)
  | 0, _, pois, rfp => (pois, rfp)
  | fuel + 1, i, pois, rfp =>
    if h : i < pois.length then
      let elem := pois[i]
      if elem ∈ removed then
        finalLoop removed fuel (i + 1) (removeFirst pois elem) (rfp ++ [elem])
      else finalLoop removed fuel (i + 1) pois rfp
    else (pois, rfp)

/-- send_routes (dv_router.py lines 180 to 298): the split-horizon main
loop over the forwarding table, then (in poison mode) the removed-hosts
poisoning pass, then (in poison mode, when not forced) the cleanup that
moves withdrawn pairs out of poisonedHosts. -/
def send_routes (force : Bool) (r : Router) : Router × List Sent :=
  let m := mainLoop r force
  let ports := r.peer_tables.map Prod.fst
  let st0 : PassSt := ⟨m.1, r.emptyFwdTableList, [], m.2⟩
  let st1 :=
    if r.poison_mode then
      remLoop force r.forwarding_table r.poisonedHosts
        r.removedFromPoisonedHosts r.trickledHosts ports r.removedHosts st0
    else st0
  let pr :=
    if r.poison_mode ∧ force = false then
      finalLoop r.removedHosts (r.poisonedHosts.length + 1) 0 r.poisonedHosts
        r.removedFromPoisonedHosts
    else (r.poisonedHosts, r.removedFromPoisonedHosts)
  ({ r with history := st1.history,
            emptyFwdTableList := st1.emptyFwdTableList,
            poisonedHosts := pr.1,
            removedFromPoisonedHosts := pr.2 }, st1.sends)

/-- One step of the forwarding-table scan of handle_link_down
(dv_router.py lines 93 to 98) over a snapshot of the keys: when the entry
for the key egresses via the downed port and the (destination, port) pair
is new, record it as removed and poisoned and delete the entry. -/
def ldStep (port : Nat)
    (acc : ForwardingTable × List (String × Nat) × List (String × Nat))
    (x : String) : ForwardingTable × List (String × Nat) × List (String × Nat) :=
  match lookupA acc.1 x with
  | some e =>
    if e.port = port then
      if (e.dst, port) ∉ acc.2.1 then
        (eraseA acc.1 x, acc.2.1 ++ [(e.dst, port)], acc.2.2 ++ [(e.dst, port)])
      else acc
    else acc
  | none => acc

/-- One step of the history cleanup of handle_link_down (dv_router.py
lines 103 to 106): for one withdrawn pair, drop every history entry for
the same destination recorded on a different port. -/
def ldHistStep (h : History) (elem : String × Nat) : History :=
  h.filter (fun it => ¬(elem.2 ≠ it.1.1 ∧ elem.1 = it.1.2))

/-- handle_link_down (dv_router.py lines 86 to 109).  First pass: scan the
forwarding-table keys and, for each entry egressing via the downed port
whose (destination, port) pair is not yet in removedHosts, record the pair
in removedHosts and poisonedHosts and delete the entry.  Then the peer
table of the port is destroyed, stale history entries for the withdrawn
destinations on other ports are dropped, the forwarding table is rebuilt
and a non-forced advertisement pass runs. -/
def handle_link_down (r : Router) (port : Nat) : Router × List Sent :=
  let scan :=
    (r.forwarding_table.map Prod.fst).foldl (ldStep port)
      (r.forwarding_table, r.removedHosts, r.poisonedHosts)
  let pts :=
    if (lookupA r.peer_tables port).isSome then eraseA r.peer_tables port
    else r.peer_tables
  let hist := scan.2.1.foldl ldHistStep r.history
  let r1 := { r with forwarding_table := scan.1,
                     removedHosts := scan.2.1,
                     poisonedHosts := scan.2.2,
                     peer_tables := pts,
                     history := hist }
  send_routes false (update_forwarding_table r1)

/-- handle_route_advertisement (dv_router.py lines 111 to 124): store the
advertised latency in the peer table of the arrival port with expiry
now + ROUTE_TTL, rebuild the forwarding table and run a non-forced
advertisement pass.  When the arrival port has no active peer table the
source raises an uncaught KeyError on the dict access, modelled as none. -/
def handle_route_advertisement (r : Router) (dst : String) (port : Nat)
    (route_latency now : Int) : Option (Router × List Sent) :=
  match lookupA r.peer_tables port with
  | none => none
  | some pt =>
    let pte : PeerTableEntry := ⟨dst, route_latency, some (now + ROUTE_TTL)⟩
    let r1 := { r with peer_tables := insertA r.peer_tables port (insertA pt dst pte) }
    some (send_routes false (update_forwarding_table r1))

/-- The inner forwarding-table scan of expire_routes (dv_router.py lines
311 to 317) for one expired peer-table entry: for every forwarding-table
item whose destination equals the expired host, record the withdrawn pair
(once) and delete the host from the peer table of the port. -/
def expireFwdLoop (port : Nat) (host : String) (r : Router) : Router :=
  r.forwarding_table.foldl
    (fun r kv =>
      if kv.1 = host then
        let r :=
          if (kv.1, port) ∉ r.removedHosts then
            { r with removedHosts := r.removedHosts ++ [(kv.1, port)],
                     poisonedHosts := r.poisonedHosts ++ [(kv.1, port)] }
          else r
        let pts := r.peer_tables.map
          (fun pp => if pp.1 = port then (pp.1, eraseA pp.2 kv.1) else pp)
        { r with peer_tables := pts }
      else r)
    r

/-- The scan of one port's peer-table items by expire_routes.  The
returned Bool is true when the source executes the early return it
performs on meeting a FOREVER entry, which aborts the whole call. -/
def expirePT (now : Int) (port : Nat) :
    List (String × PeerTableEntry) → Router → Router × Bool
  | [], r => (r, false)
  | (host, value) :: rest, r =>
    match value.expire_time with
    | none => (r, true)
    | some t =>
      if now > t then
        expirePT now port rest (update_forwarding_table (expireFwdLoop port host r))
      else expirePT now port rest r

/-- The port loop of expire_routes, stopping as soon as some port's scan
hit the early return. -/
def expireLoop (now : Int) : List Nat → Router → Router
  | [], r => r
  | port :: rest, r =>
    match lookupA r.peer_tables port with
    | none => expireLoop now rest r
    | some pt =>
      let rb := expirePT now port pt r
      if rb.2 then rb.1 else expireLoop now rest rb.1

/-- expire_routes (dv_router.py lines 300 to 319), with the current time
passed explicitly in place of api.current_time(). -/
def expire_routes (now : Int) (r : Router) : Router :=
  expireLoop now (r.peer_tables.map Prod.fst) r

/-! Infrastructure for the route-selection proof: the inner step of
update_forwarding_table specializes, under the key-uniqueness invariants,
to a per-candidate relaxation over the flattened candidate list. -/

/-- Capping a cost at INFINITY, exactly as lines 144 and 145 do. -/
def capI (x : Int) : Int := if x > INFINITY then INFINITY else x

/-- The cost contributed by one peer-table entry on one port:
link latency plus advertised latency, capped. -/
def candCost (r : Router) (port : Nat) (e : PeerTableEntry) : Int :=
  capI (lookupD r.link_latency port 0 + e.latency)

/-- One relaxation: keep the cheaper entry, a tie keeping the incumbent. -/
def relaxStep (ft : ForwardingTable) (c : String × Nat × Int) : ForwardingTable :=
  match lookupA ft c.1 with
  | some prev =>
    if c.2.2 < prev.latency then insertA ft c.1 ⟨c.1, c.2.1, c.2.2⟩ else ft
  | none => insertA ft c.1 ⟨c.1, c.2.1, c.2.2⟩

/-- All (destination, port, cost) candidates, in iteration order. -/
def flatCands (r : Router) : List (String × Nat × Int) :=
  r.peer_tables.flatMap (fun pp =>
    pp.2.map (fun hv => (hv.1, pp.1, candCost r pp.1 hv.2)))

/-- The (port, cost) candidates for one destination in a candidate list. -/
def candsOf (l : List (String × Nat × Int)) (D : String) : List (Nat × Int) :=
  l.filterMap (fun c => if c.1 = D then some c.2 else none)

/-- Combining the entry already in the table with the winning candidate of
the remaining list (a later candidate wins only when strictly smaller). -/
def combineC (D : String) :
    Option ForwardingTableEntry → Option (Nat × Int) → Option ForwardingTableEntry
  | e?, none => e?
  | none, some pc => some ⟨D, pc.1, pc.2⟩
  | some e, some pc => if pc.2 < e.latency then some ⟨D, pc.1, pc.2⟩ else some e

/-! Spec-side definitions, following the specification's words, used to
state the route-selection claim against the implementation above. -/

/-- Per the spec's route-computation rule: the candidate (port, cost)
list for destination D, in port-iteration order, over exactly the active
ports whose peer table contains D, with cost = min(linkLatency[port] +
peerLatency[port][D], INFINITY). -/
def candidatesFor (r : Router) (D : String) : List (Nat × Int) :=
  r.peer_tables.filterMap (fun pp =>
    (lookupA pp.2 D).map (fun e => (pp.1, candCost r pp.1 e)))

/-- Per the spec's tie-break rule: the smallest cost in the list, kept
with the first port that attains it (a later candidate wins only when
strictly smaller). -/
def firstMin : List (Nat × Int) → Option (Nat × Int)
  | [] => none
  | pc :: rest =>
    match firstMin rest with
    | none => some pc
    | some qd => if qd.2 < pc.2 then some qd else some pc

/-! Concrete router states used by witnesses and counterexamples. -/

/-- A fresh router state with everything empty. -/
def emptyRouter (poison : Bool) : Router :=
  { poison_mode := poison, link_latency := [], peer_tables := [],
    forwarding_table := [], history := [], removedHosts := [],
    emptyFwdTableList := [], poisonedHosts := [],
    removedFromPoisonedHosts := [], trickledHosts := [] }

/-- A state whose port-1 peer table holds a statically attached host A
(FOREVER) followed by an expired learned route B. -/
def sC3 : Router :=
  { emptyRouter true with
    link_latency := [(1, 1)],
    peer_tables := [(1, [("A", ⟨"A", 0, none⟩), ("B", ⟨"B", 1, some 5⟩)])],
    forwarding_table := [("A", ⟨"A", 1, 1⟩), ("B", ⟨"B", 1, 2⟩)] }

/-- A reachable poison-mode state with an empty forwarding table, two
pending withdrawn pairs still in poisonedHosts, recorded INFINITY
history for both on the single active port 2, and a nonempty
emptyFwdTableList (as left behind by a forced advertisement pass that ran
while the forwarding table was empty). -/
def sC5 : Router :=
  { emptyRouter true with
    link_latency := [(2, 1)],
    peer_tables := [(2, [])],
    history := [((2, "B"), ⟨"B", 2, 16⟩), ((2, "D"), ⟨"D", 2, 16⟩)],
    removedHosts := [("B", 1), ("D", 1)],
    poisonedHosts := [("B", 1), ("D", 1)],
    emptyFwdTableList := [(2, "B")] }

/-- A reachable poison-mode state mid-convergence: two active ports, two
live routes in the forwarding table, one earlier withdrawal still pending
in removedHosts and poisonedHosts, nothing advertised yet, and an empty
emptyFwdTableList. -/
def wC5 : Router :=
  { emptyRouter true with
    link_latency := [(1, 1), (2, 2)],
    peer_tables := [(1, [("A", ⟨"A", 0, none⟩)]),
      (2, [("C", ⟨"C", 1, some 20⟩)])],
    forwarding_table := [("A", ⟨"A", 1, 1⟩), ("C", ⟨"C", 2, 3⟩)],
    removedHosts := [("B", 1)],
    poisonedHosts := [("B", 1)] }

/-- A reachable poison-mode state after a link-down withdrew B: empty
forwarding table, B pending in removedHosts, INFINITY history for B on
both remaining active ports, emptyFwdTableList still empty. -/
def sC6 : Router :=
  { emptyRouter true with
    link_latency := [(2, 1), (3, 1)],
    peer_tables := [(2, []), (3, [])],
    history := [((2, "B"), ⟨"B", 2, 16⟩), ((3, "B"), ⟨"B", 3, 16⟩)],
    removedHosts := [("B", 1)] }

/-- A poison-mode state with two active ports, two live routes and no
pending withdrawals (removedHosts empty). -/
def wC6 : Router :=
  { emptyRouter true with
    link_latency := [(1, 1), (2, 2)],
    peer_tables := [(1, [("A", ⟨"A", 0, none⟩)]),
      (2, [("C", ⟨"C", 1, some 20⟩)])],
    forwarding_table := [("A", ⟨"A", 1, 1⟩), ("C", ⟨"C", 2, 3⟩)] }

/-- A state with one active, empty peer table on port 1. -/
def sC9 : Router :=
  { emptyRouter false with
    link_latency := [(1, 1)],
    peer_tables := [(1, [])] }

/-- The state and transmissions produced by a route advertisement for B
with latency 5 on port 1 of sC9, used as a witness. -/
def wC9r : Router × List Sent :=
  (handle_route_advertisement sC9 "B" 1 5 0).getD (emptyRouter true, [])

/-- Witness state for the route-selection claim: two active ports both
offering B, port 1 cheaper. -/
def wC1 : Router :=
  { emptyRouter true with
    link_latency := [(1, 1), (2, 5)],
    peer_tables := [(1, [("B", ⟨"B", 2, some 20⟩)]), (2, [("B", ⟨"B", 1, some 20⟩)])] }

/-- Witness state for the no-poison claim: split-horizon-only mode, best
route to B via port 1, a second active port 2, empty history. -/
def wC10 : Router :=
  { emptyRouter false with
    link_latency := [(1, 1), (2, 1)],
    peer_tables := [(1, [("B", ⟨"B", 2, some 20⟩)]), (2, [])],
    forwarding_table := [("B", ⟨"B", 1, 3⟩)] }

/-- Witness state for the advertisement claims: poison mode, best route
to B via port 1, a second active port 2, empty history. -/
def wC2 : Router :=
  { emptyRouter true with
    link_latency := [(1, 1), (2, 1)],
    peer_tables := [(1, [("B", ⟨"B", 2, some 20⟩)]), (2, [])],
    forwarding_table := [("B", ⟨"B", 1, 3⟩)] }

/-- Witness state for the link-down claim: port 1 carries the sole route
to B, port 2 is the only other active port, and the neighbor on port 2
was previously advertised a finite cost for B. -/
def wC4 : Router :=
  { emptyRouter true with
    link_latency := [(1, 1), (2, 1)],
    peer_tables := [(1, [("B", ⟨"B", 2, some 20⟩)]), (2, [])],
    forwarding_table := [("B", ⟨"B", 1, 3⟩)],
    history := [((2, "B"), ⟨"B", 2, 3⟩)] }

/-- A reachable poison-mode re-withdrawal state: an earlier withdrawal of
B via port 1 has already been moved to removedFromPoisonedHosts by the
poisonedHosts cleanup, port 1 has come back up, and B has since been
re-learned via port 2; ports 1, 2 and 3 are all active. -/
def sC4x : Router :=
  { emptyRouter true with
    link_latency := [(1, 1), (2, 1), (3, 1)],
    peer_tables := [(1, []), (2, [("B", ⟨"B", 1, some 20⟩)]), (3, [])],
    forwarding_table := [("B", ⟨"B", 2, 2⟩)],
    history := [((1, "B"), ⟨"B", 1, 2⟩), ((2, "B"), ⟨"B", 2, 16⟩),
      ((3, "B"), ⟨"B", 3, 2⟩)],
    removedHosts := [("B", 1)],
    removedFromPoisonedHosts := [("B", 1)] }

/-! Association-list lemmas. -/

theorem lookupA_insertA_self {α β : Type} [DecidableEq α] (l : List (α × β))
    (a : α) (b : β) : lookupA (insertA l a b) a = some b := by
  induction l with
  | nil => simp [insertA, lookupA]
  | cons kv rest ih =>
    by_cases hk : kv.1 = a
    · simp [insertA, hk, lookupA]
    · simp [insertA, hk, lookupA, ih]

theorem lookupA_insertA_ne {α β : Type} [DecidableEq α] :
    ∀ (l : List (α × β)) (a a' : α) (b : β), a' ≠ a →
      lookupA (insertA l a b) a' = lookupA l a' := by
  intro l
  induction l with
  | nil =>
    intro a a' b h
    simp only [insertA, lookupA]
    rw [if_neg (fun hh : a = a' => h hh.symm)]
  | cons kv rest ih =>
    intro a a' b h
    by_cases hk : kv.1 = a
    · have hka' : kv.1 ≠ a' := fun hh => h ((hk.symm.trans hh).symm)
      simp only [insertA, if_pos hk, lookupA]
      rw [if_neg (fun hh : a = a' => h hh.symm), if_neg hka']
    · simp only [insertA, if_neg hk, lookupA]
      by_cases hk' : kv.1 = a'
      · rw [if_pos hk', if_pos hk']
      · rw [if_neg hk', if_neg hk', ih a a' b h]

theorem lookupA_eq_none_iff {α β : Type} [DecidableEq α] (l : List (α × β))
    (a : α) : lookupA l a = none ↔ a ∉ l.map Prod.fst := by
  induction l with
  | nil => simp [lookupA]
  | cons kv rest ih =>
    by_cases hk : kv.1 = a
    · simp [lookupA, hk]
    · rw [List.map_cons, List.mem_cons]
      simp only [lookupA, if_neg hk, ih]
      constructor
      · intro hna hor
        rcases hor with hor | hor
        · exact hk hor.symm
        · exact hna hor
      · intro hno hmem
        exact hno (Or.inr hmem)

theorem lookupA_isSome_iff {α β : Type} [DecidableEq α] (l : List (α × β))
    (a : α) : (lookupA l a).isSome ↔ a ∈ l.map Prod.fst := by
  induction l with
  | nil => simp [lookupA]
  | cons kv rest ih =>
    by_cases hk : kv.1 = a
    · simp [lookupA, hk]
    · rw [List.map_cons, List.mem_cons]
      simp only [lookupA, if_neg hk, ih]
      constructor
      · intro hm
        exact Or.inr hm
      · intro hor
        rcases hor with hor | hor
        · exact absurd hor.symm hk
        · exact hor

theorem lookupA_mem {α β : Type} [DecidableEq α] :
    ∀ {l : List (α × β)} {a : α} {b : β}, lookupA l a = some b → (a, b) ∈ l := by
  intro l
  induction l with
  | nil => intro a b h; simp [lookupA] at h
  | cons kv rest ih =>
    intro a b h
    by_cases hk : kv.1 = a
    · simp only [lookupA, if_pos hk] at h
      have : kv = (a, b) := by
        cases h
        exact Prod.ext hk rfl
      exact this ▸ List.mem_cons_self _ _
    · simp only [lookupA, if_neg hk] at h
      exact List.mem_cons_of_mem _ (ih h)

theorem mem_lookupA_nodup {α β : Type} [DecidableEq α] :
    ∀ {l : List (α × β)}, (l.map Prod.fst).Nodup →
      ∀ {a : α} {b : β}, (a, b) ∈ l → lookupA l a = some b := by
  intro l
  induction l with
  | nil => intro _ a b h; cases h
  | cons kv rest ih =>
    intro hnd a b h
    simp only [List.map_cons, List.nodup_cons] at hnd
    rcases List.mem_cons.1 h with h | h
    · simp [← h, lookupA]
    · have hk : kv.1 ≠ a := by
        intro he
        exact hnd.1 (he ▸ List.mem_map_of_mem Prod.fst h)
      simp only [lookupA, if_neg hk]
      exact ih hnd.2 h

theorem mem_insertA {α β : Type} [DecidableEq α] :
    ∀ {l : List (α × β)} {a : α} {b : β} {x : α × β},
      x ∈ insertA l a b → x = (a, b) ∨ x ∈ l := by
  intro l
  induction l with
  | nil => intro a b x h; simpa [insertA] using h
  | cons kv rest ih =>
    intro a b x h
    by_cases hk : kv.1 = a
    · simp only [insertA, if_pos hk] at h
      rcases List.mem_cons.1 h with h | h
      · exact Or.inl h
      · exact Or.inr (List.mem_cons_of_mem _ h)
    · simp only [insertA, if_neg hk] at h
      rcases List.mem_cons.1 h with h | h
      · exact Or.inr (h ▸ List.mem_cons_self _ _)
      · rcases ih h with h | h
        · exact Or.inl h
        · exact Or.inr (List.mem_cons_of_mem _ h)

theorem keys_insertA_mem {α β : Type} [DecidableEq α] :
    ∀ (l : List (α × β)) (a : α) (b : β), a ∈ l.map Prod.fst →
      (insertA l a b).map Prod.fst = l.map Prod.fst := by
  intro l
  induction l with
  | nil => intro a b h; cases h
  | cons kv rest ih =>
    intro a b h
    by_cases hk : kv.1 = a
    · simp [insertA, hk]
    · have : a ∈ rest.map Prod.fst := by
        rcases List.mem_cons.1 h with h | h
        · exact absurd h.symm hk
        · exact h
      simp [insertA, hk, ih a b this]

theorem keys_insertA_not_mem {α β : Type} [DecidableEq α] :
    ∀ (l : List (α × β)) (a : α) (b : β), a ∉ l.map Prod.fst →
      (insertA l a b).map Prod.fst = l.map Prod.fst ++ [a] := by
  intro l
  induction l with
  | nil => intro a b _; simp [insertA]
  | cons kv rest ih =>
    intro a b h
    have hk : kv.1 ≠ a := by
      intro he
      exact h (by simp [he])
    have hr : a ∉ rest.map Prod.fst := by
      intro hm
      exact h (by simp [hm])
    simp [insertA, hk, ih a b hr]

/-! Claim theorems. -/

/-- C7: handle_data_packet(packet, in_port) forwards the packet unchanged
out port forwarding_table[packet.dst].port if and only if packet.dst is in
the forwarding table with latency strictly below INFINITY and an out port
different from in_port; in every other case it sends nothing; and it never
mutates the router state. -/
theorem C7_data_packet_forwarding (r : Router) (dst : String) (in_port : Nat) :
    (handle_data_packet r dst in_port).1 = r ∧
    (∀ x ∈ (handle_data_packet r dst in_port).2, x.1 = dst) ∧
    (∀ q : Nat, (dst, q) ∈ (handle_data_packet r dst in_port).2 ↔
      ∃ e, lookupA r.forwarding_table dst = some e ∧
        e.latency < INFINITY ∧ e.port ≠ in_port ∧ q = e.port) := by
  unfold handle_data_packet
  cases h : lookupA r.forwarding_table dst with
  | none => simp
  | some e =>
    by_cases h1 : e.latency ≥ INFINITY
    · simp only [if_pos h1]
      refine ⟨by simp, by simp, fun q => ?_⟩
      simp only [List.not_mem_nil, false_iff]
      rintro ⟨e', he', hlt, -, -⟩
      cases he'
      omega
    · simp only [if_neg h1]
      by_cases h2 : e.port = in_port
      · simp only [if_pos h2]
        refine ⟨by simp, by simp, fun q => ?_⟩
        simp only [List.not_mem_nil, false_iff]
        rintro ⟨e', he', -, hne, -⟩
        cases he'
        exact hne h2
      · simp only [if_neg h2]
        refine ⟨by simp, by simp, fun q => ?_⟩
        constructor
        · intro hq
          rcases List.mem_singleton.1 hq with hq
          exact ⟨e, rfl, by omega, h2, (Prod.ext_iff.1 hq).2⟩
        · rintro ⟨e', he', -, -, hq⟩
          cases he'
          exact hq ▸ List.mem_singleton.2 rfl

/-- C8: per the spec, a route advertisement for a port with no active peer
table must be ignored without failing; the source instead performs an
unguarded dict access that raises KeyError, modelled by the none result of
handle_route_advertisement. -/
theorem C8_unknown_port_keyerror (r : Router) (dst : String) (port : Nat)
    (route_latency now : Int) (h : lookupA r.peer_tables port = none) :
    handle_route_advertisement r dst port route_latency now = none := by
  unfold handle_route_advertisement
  rw [h]

theorem C8_unknown_port_keyerror_witness :
    lookupA (emptyRouter true).peer_tables 7 = none ∧
    handle_route_advertisement (emptyRouter true) "B" 7 3 0 = none :=
  ⟨by decide, C8_unknown_port_keyerror (emptyRouter true) "B" 7 3 0 (by decide)⟩

/-- C3: the state sC3 has an expired learned route for B on port 1
(expiry 5, current time 10), yet expire_routes removes nothing: the scan
meets the FOREVER entry for host A first and the source then returns from
the whole function, so the statically attached entry does prevent other
expired entries from being removed, contradicting the claim. -/
theorem C3_expire_forever_aborts :
    (lookupA ((lookupA sC3.peer_tables 1).getD []) "B"
        = some ⟨"B", 1, some 5⟩) ∧
    (10 : Int) > 5 ∧
    expire_routes 10 sC3 = sC3 := by
  refine ⟨by decide, by decide, by decide⟩

/-- C5 counterexample: from the reachable state sC5, two successive calls
of send_routes with force false and no intervening mutation do NOT
produce zero transmissions on the second call: the nonempty
emptyFwdTableList overrides the history suppression for the withdrawn
pair (D, 1), which the first call's cleanup loop skipped because it
removes elements of poisonedHosts while iterating it by index. -/
theorem C5_suppression_cex :
    (send_routes false (send_routes false sC5).1).2 = [(2, "D", 16)] ∧
    (send_routes false (send_routes false sC5).1).2 ≠ [] := by
  refine ⟨by decide, by decide⟩

/-- C6 counterexample: from the reachable state sC6, two successive calls
of send_routes with force true transmit different multisets: the first
call records (port, B) pairs in emptyFwdTableList and advertises B's
withdrawal on ports 2 and 3, while the second call hits the
emptyFwdTableList break and transmits nothing. -/
theorem C6_force_idem_cex :
    (send_routes true sC6).2 = [(2, "B", 16), (3, "B", 16)] ∧
    (send_routes true (send_routes true sC6).1).2 = [] ∧
    Multiset.ofList (send_routes true (send_routes true sC6).1).2 ≠
      Multiset.ofList (send_routes true sC6).2 := by
  refine ⟨by decide, by decide, by decide⟩

/-- C9 counterexample: a neighbor-supplied latency of -5 on port 1 (link
latency 1) is stored raw in the peer table and yields a forwarding-table
latency of -4: nothing clamps costs below zero, contradicting the claim
that every stored latency lies in [0, 16]. -/
theorem C9_clamp_cex :
    ((handle_route_advertisement sC9 "B" 1 (-5) 0).map
        (fun rp => lookupA ((lookupA rp.1.peer_tables 1).getD []) "B")
      = some (some ⟨"B", -5, some 15⟩)) ∧
    ((handle_route_advertisement sC9 "B" 1 (-5) 0).map
        (fun rp => lookupA rp.1.forwarding_table "B")
      = some (some ⟨"B", 1, -4⟩)) ∧
    ¬(0 : Int) ≤ -4 := by
  refine ⟨by decide, by decide, by decide⟩

/-! Route-selection lemmas for C1. -/

theorem lookupA_relaxStep_ne (ft : ForwardingTable) (c : String × Nat × Int)
    (D : String) (h : c.1 ≠ D) : lookupA (relaxStep ft c) D = lookupA ft D := by
  unfold relaxStep
  cases lookupA ft c.1 with
  | none => exact lookupA_insertA_ne ft c.1 D _ (fun hh => h hh.symm)
  | some prev =>
    by_cases hlt : c.2.2 < prev.latency
    · simp only [if_pos hlt]
      exact lookupA_insertA_ne ft c.1 D _ (fun hh => h hh.symm)
    · simp only [if_neg hlt]

theorem candsOf_cons_ne (c : String × Nat × Int) (l : List (String × Nat × Int))
    (D : String) (h : c.1 ≠ D) : candsOf (c :: l) D = candsOf l D := by
  simp [candsOf, List.filterMap_cons, h]

theorem candsOf_cons_eq (c : String × Nat × Int) (l : List (String × Nat × Int))
    (D : String) (h : c.1 = D) : candsOf (c :: l) D = c.2 :: candsOf l D := by
  simp [candsOf, List.filterMap_cons, h]

theorem firstMin_cons (pc : Nat × Int) (l : List (Nat × Int)) :
    firstMin (pc :: l)
      = match firstMin l with
        | none => some pc
        | some qd => if qd.2 < pc.2 then some qd else some pc := rfl

theorem combineC_relax (D : String) (e? : Option ForwardingTableEntry)
    (pc : Nat × Int) (m : Option (Nat × Int)) :
    combineC D
      (match e? with
       | some prev => if pc.2 < prev.latency then some ⟨D, pc.1, pc.2⟩ else some prev
       | none => some ⟨D, pc.1, pc.2⟩)
      m
    = combineC D e?
        (match m with
         | none => some pc
         | some qd => if qd.2 < pc.2 then some qd else some pc) := by
  cases e? with
  | none =>
    cases m with
    | none => rfl
    | some qd =>
      dsimp only
      split_ifs <;> simp only [combineC] <;>
        first
        | rfl
        | omega
        | (split_ifs <;> first | rfl | omega)
  | some prev =>
    cases m with
    | none =>
      dsimp only
      split_ifs <;> simp only [combineC] <;>
        first
        | rfl
        | omega
        | (split_ifs <;> first | rfl | omega)
    | some qd =>
      dsimp only
      split_ifs <;> simp only [combineC] <;>
        first
        | rfl
        | omega
        | (split_ifs <;> first | rfl | omega)

theorem foldRelax_lookup (D : String) :
    ∀ (l : List (String × Nat × Int)) (ft : ForwardingTable),
      lookupA (l.foldl relaxStep ft) D
        = combineC D (lookupA ft D) (firstMin (candsOf l D)) := by
  intro l
  induction l with
  | nil =>
    intro ft
    simp only [List.foldl_nil, candsOf, List.filterMap_nil, firstMin]
    cases lookupA ft D <;> rfl
  | cons c rest ih =>
    intro ft
    simp only [List.foldl_cons]
    rw [ih]
    by_cases hc : c.1 = D
    · subst hc
      rw [candsOf_cons_eq c rest c.1 rfl, firstMin_cons]
      have hrel : lookupA (relaxStep ft c) c.1
          = match lookupA ft c.1 with
            | some prev =>
              if c.2.2 < prev.latency then some ⟨c.1, c.2.1, c.2.2⟩ else some prev
            | none => some ⟨c.1, c.2.1, c.2.2⟩ := by
        unfold relaxStep
        cases hft : lookupA ft c.1 with
        | none =>
          dsimp only
          exact lookupA_insertA_self ft c.1 _
        | some prev =>
          dsimp only
          split_ifs
          · exact lookupA_insertA_self ft c.1 _
          · exact hft
      rw [hrel, combineC_relax]
    · rw [lookupA_relaxStep_ne ft c D hc, candsOf_cons_ne c rest D hc]

theorem foldl_uft_inner (r : Router) (port : Nat) (pt : PeerTable)
    (hpt : lookupA r.peer_tables port = some pt) (hne : pt.isEmpty = false) :
    ∀ (l : List (String × PeerTableEntry)) (ft : ForwardingTable),
      l.foldl (uftStep r port) ft
        = (l.map (fun hv => (hv.1, port, candCost r port hv.2))).foldl relaxStep ft := by
  intro l
  induction l with
  | nil => intro ft; rfl
  | cons hv rest ih =>
    intro ft
    simp only [List.foldl_cons, List.map_cons]
    rw [← ih]
    congr 1
    unfold uftStep relaxStep candCost capI
    simp only [hpt, hne, Bool.not_false, if_pos rfl, if_true]

theorem foldl_uft_outer (r : Router) :
    ∀ (pts : List (Nat × PeerTable)),
      (∀ pp ∈ pts, lookupA r.peer_tables pp.1 = some pp.2) →
      ∀ ft, pts.foldl (fun ft pp => pp.2.foldl (uftStep r pp.1) ft) ft
        = (pts.flatMap (fun pp =>
            pp.2.map (fun hv => (hv.1, pp.1, candCost r pp.1 hv.2)))).foldl
            relaxStep ft := by
  intro pts
  induction pts with
  | nil => intro _ ft; rfl
  | cons pp rest ih =>
    intro hmem ft
    simp only [List.foldl_cons, List.flatMap_cons, List.foldl_append]
    rw [← ih (fun q hq => hmem q (List.mem_cons_of_mem _ hq))]
    congr 1
    cases hpe : pp.2 with
    | nil => rfl
    | cons hv tl =>
      rw [← hpe]
      exact foldl_uft_inner r pp.1 pp.2
        (hmem pp (List.mem_cons_self _ _)) (by rw [hpe]; rfl) pp.2 ft

theorem update_forwarding_table_eq (r : Router)
    (h1 : (r.peer_tables.map Prod.fst).Nodup) :
    (update_forwarding_table r).forwarding_table
      = (flatCands r).foldl relaxStep [] := by
  unfold update_forwarding_table flatCands
  exact foldl_uft_outer r r.peer_tables
    (fun pp hm => mem_lookupA_nodup h1 hm) []

theorem table_cands (D : String) (g : PeerTableEntry → Nat × Int) :
    ∀ (pt : PeerTable), (pt.map Prod.fst).Nodup →
      (pt.map (fun hv => ((hv.1 : String), g hv.2))).filterMap
          (fun c => if c.1 = D then some c.2 else none)
        = ((lookupA pt D).map g).toList := by
  intro pt
  induction pt with
  | nil => intro _; rfl
  | cons kv rest ih =>
    intro hnd
    simp only [List.map_cons, List.nodup_cons] at hnd
    simp only [List.map_cons, List.filterMap_cons]
    by_cases hk : kv.1 = D
    · simp only [if_pos hk, lookupA, Option.map_some]
      have hrest : lookupA rest D = none := by
        rw [lookupA_eq_none_iff]
        exact hk ▸ hnd.1
      rw [ih hnd.2, hrest]
      rfl
    · simp only [if_neg hk, lookupA]
      rw [ih hnd.2]

theorem candsOf_append (l1 l2 : List (String × Nat × Int)) (D : String) :
    candsOf (l1 ++ l2) D = candsOf l1 D ++ candsOf l2 D := by
  simp [candsOf]

theorem candsOf_flat_aux (r : Router) (D : String) :
    ∀ (pts : List (Nat × PeerTable)),
      (∀ pp ∈ pts, (pp.2.map Prod.fst).Nodup) →
      candsOf (pts.flatMap (fun pp =>
          pp.2.map (fun hv => (hv.1, pp.1, candCost r pp.1 hv.2)))) D
        = pts.filterMap (fun pp =>
            (lookupA pp.2 D).map (fun e => (pp.1, candCost r pp.1 e))) := by
  intro pts
  induction pts with
  | nil => intro _; rfl
  | cons pp rest ih =>
    intro h2
    rw [List.flatMap_cons, candsOf_append,
      ih (fun q hq => h2 q (List.mem_cons_of_mem _ hq)), List.filterMap_cons]
    have ht := table_cands D (fun e => (pp.1, candCost r pp.1 e)) pp.2
      (h2 pp (List.mem_cons_self _ _))
    unfold candsOf
    rw [ht]
    cases lookupA pp.2 D with
    | none => rfl
    | some e => rfl

theorem candsOf_flatCands (r : Router)
    (h2 : ∀ pp ∈ r.peer_tables, (pp.2.map Prod.fst).Nodup) (D : String) :
    candsOf (flatCands r) D = candidatesFor r D := by
  unfold flatCands candidatesFor
  exact candsOf_flat_aux r D r.peer_tables h2

theorem firstMin_eq_none :
    ∀ (l : List (Nat × Int)), firstMin l = none → l = [] := by
  intro l
  cases l with
  | nil => intro _; rfl
  | cons c rest =>
    intro h
    rw [firstMin_cons] at h
    cases hfm : firstMin rest with
    | none =>
      rw [hfm] at h
      dsimp only at h
      cases h
    | some qd =>
      rw [hfm] at h
      dsimp only at h
      split_ifs at h <;> cases h

theorem firstMin_mem :
    ∀ (l : List (Nat × Int)) (pc : Nat × Int), firstMin l = some pc → pc ∈ l := by
  intro l
  induction l with
  | nil => intro pc h; cases h
  | cons c rest ih =>
    intro pc h
    rw [firstMin_cons] at h
    cases hfm : firstMin rest with
    | none =>
      rw [hfm] at h
      dsimp only at h
      cases h
      exact List.mem_cons_self _ _
    | some qd =>
      rw [hfm] at h
      dsimp only at h
      by_cases hlt : qd.2 < c.2
      · rw [if_pos hlt] at h
        cases h
        exact List.mem_cons_of_mem _ (ih _ hfm)
      · rw [if_neg hlt] at h
        cases h
        exact List.mem_cons_self _ _

theorem firstMin_le :
    ∀ (l : List (Nat × Int)) (pc : Nat × Int), firstMin l = some pc →
      ∀ qd ∈ l, pc.2 ≤ qd.2 := by
  intro l
  induction l with
  | nil => intro pc h; cases h
  | cons c rest ih =>
    intro pc h qd' hqd'
    rw [firstMin_cons] at h
    cases hfm : firstMin rest with
    | none =>
      rw [hfm] at h
      dsimp only at h
      cases h
      rcases List.mem_cons.1 hqd' with hh | hh
      · exact hh ▸ le_refl _
      · rw [firstMin_eq_none rest hfm] at hh
        cases hh
    | some qd =>
      rw [hfm] at h
      dsimp only at h
      rcases List.mem_cons.1 hqd' with hh | hh
      · rw [hh]
        by_cases hlt : qd.2 < c.2
        · rw [if_pos hlt] at h
          cases h
          omega
        · rw [if_neg hlt] at h
          cases h
          exact le_refl _
      · have hle := ih qd hfm qd' hh
        by_cases hlt : qd.2 < c.2
        · rw [if_pos hlt] at h
          cases h
          exact hle
        · rw [if_neg hlt] at h
          cases h
          omega

theorem keys_relaxStep_nodup (ft : ForwardingTable) (c : String × Nat × Int)
    (h : (ft.map Prod.fst).Nodup) : ((relaxStep ft c).map Prod.fst).Nodup := by
  unfold relaxStep
  cases hft : lookupA ft c.1 with
  | some prev =>
    dsimp only
    split_ifs
    · rw [keys_insertA_mem ft c.1 _ (by
        rw [← lookupA_isSome_iff, hft]; rfl)]
      exact h
    · exact h
  | none =>
    dsimp only
    have hnm : c.1 ∉ ft.map Prod.fst := (lookupA_eq_none_iff ft c.1).1 hft
    rw [keys_insertA_not_mem ft c.1 _ hnm]
    refine List.Nodup.append h (List.nodup_singleton _) ?_
    intro a ha hb
    rw [List.mem_singleton] at hb
    exact hnm (hb ▸ ha)

theorem keys_foldRelax_nodup :
    ∀ (l : List (String × Nat × Int)) (ft : ForwardingTable),
      (ft.map Prod.fst).Nodup → ((l.foldl relaxStep ft).map Prod.fst).Nodup := by
  intro l
  induction l with
  | nil => intro ft h; exact h
  | cons c rest ih =>
    intro ft h
    exact ih _ (keys_relaxStep_nodup ft c h)

/-- C1: after update_forwarding_table, the forwarding table has exactly
one entry per destination (its key list has no duplicates); the entry for
any destination D, when some port's peer table offers D, is exactly the
(port, cost) candidate selected by taking cost = min(linkLatency[port] +
peerLatency[port][D], INFINITY) per offering port and keeping the
smallest cost with first-seen tie-break (firstMin); in particular its
latency is a minimum over all candidates, attained at its port.  The
key-uniqueness hypotheses are the dict invariants of the source (each
Python dict has unique keys). -/
theorem C1_forwarding_min (r : Router)
    (h1 : (r.peer_tables.map Prod.fst).Nodup)
    (h2 : ∀ pp ∈ r.peer_tables, (pp.2.map Prod.fst).Nodup) :
    ((update_forwarding_table r).forwarding_table.map Prod.fst).Nodup ∧
    (∀ D : String,
      lookupA (update_forwarding_table r).forwarding_table D
        = (firstMin (candidatesFor r D)).map
            (fun pc => (⟨D, pc.1, pc.2⟩ : ForwardingTableEntry))) ∧
    (∀ (D : String) (e : ForwardingTableEntry),
      lookupA (update_forwarding_table r).forwarding_table D = some e →
        (e.port, e.latency) ∈ candidatesFor r D ∧
        ∀ pc ∈ candidatesFor r D, e.latency ≤ pc.2) := by
  have heq : ∀ D : String,
      lookupA (update_forwarding_table r).forwarding_table D
        = (firstMin (candidatesFor r D)).map
            (fun pc => (⟨D, pc.1, pc.2⟩ : ForwardingTableEntry)) := by
    intro D
    rw [update_forwarding_table_eq r h1, foldRelax_lookup D (flatCands r) [],
      candsOf_flatCands r h2 D]
    show combineC D none (firstMin (candidatesFor r D)) = _
    cases firstMin (candidatesFor r D) with
    | none => rfl
    | some pc => rfl
  refine ⟨?_, heq, ?_⟩
  · rw [update_forwarding_table_eq r h1]
    exact keys_foldRelax_nodup (flatCands r) [] (by simp)
  · intro D e he
    rw [heq D] at he
    cases hfm : firstMin (candidatesFor r D) with
    | none => rw [hfm] at he; cases he
    | some pc =>
      rw [hfm] at he
      simp only [Option.map_some', Option.some.injEq] at he
      subst he
      constructor
      · simpa using firstMin_mem _ pc hfm
      · intro qd hqd
        simpa using firstMin_le _ pc hfm qd hqd

theorem C1_forwarding_min_witness :
    ((wC1.peer_tables.map Prod.fst).Nodup) ∧
    (∀ pp ∈ wC1.peer_tables, (pp.2.map Prod.fst).Nodup) ∧
    (((update_forwarding_table wC1).forwarding_table.map Prod.fst).Nodup ∧
     (∀ D : String,
       lookupA (update_forwarding_table wC1).forwarding_table D
         = (firstMin (candidatesFor wC1 D)).map
             (fun pc => (⟨D, pc.1, pc.2⟩ : ForwardingTableEntry))) ∧
     (∀ (D : String) (e : ForwardingTableEntry),
       lookupA (update_forwarding_table wC1).forwarding_table D = some e →
         (e.port, e.latency) ∈ candidatesFor wC1 D ∧
         ∀ pc ∈ candidatesFor wC1 D, e.latency ≤ pc.2)) :=
  ⟨by decide, by decide, C1_forwarding_min wC1 (by decide) (by decide)⟩

/-! Send-membership lemmas for the advertisement claims. -/

theorem sendIf_sends (st : History × List Sent) (port : Nat) (key : String)
    (cost : Int) (force : Bool) :
    (sendIf st port key cost force).2 = st.2 ∨
    (sendIf st port key cost force).2 = st.2 ++ [(port, key, cost)] := by
  unfold sendIf
  by_cases hf : force = false
  · rw [if_pos hf]
    cases lookupA st.1 (port, key) with
    | none => right; rfl
    | some v =>
      dsimp only
      split_ifs
      · right; rfl
      · left; rfl
  · rw [if_neg hf]
    right
    rfl

theorem mainStep_sends (poison force : Bool) (port : Nat)
    (st : History × List Sent) (ki : String × ForwardingTableEntry) :
    ∀ s ∈ (mainStep poison force port st ki).2,
      s ∈ st.2 ∨
      (s = (port, ki.1, INFINITY) ∧ poison = true ∧ port = ki.2.port) ∨
      (s = (port, ki.1, ki.2.latency) ∧ port ≠ ki.2.port) := by
  intro s hs
  unfold mainStep at hs
  by_cases hp : poison
  · rw [if_pos hp] at hs
    by_cases hq : port = ki.2.port
    · rw [if_pos hq] at hs
      rcases sendIf_sends st port ki.1 INFINITY force with h | h <;> rw [h] at hs
      · exact Or.inl hs
      · rcases List.mem_append.1 hs with hh | hh
        · exact Or.inl hh
        · exact Or.inr (Or.inl ⟨List.mem_singleton.1 hh, hp, hq⟩)
    · rw [if_neg hq] at hs
      rcases sendIf_sends st port ki.1 ki.2.latency force with h | h <;> rw [h] at hs
      · exact Or.inl hs
      · rcases List.mem_append.1 hs with hh | hh
        · exact Or.inl hh
        · exact Or.inr (Or.inr ⟨List.mem_singleton.1 hh, hq⟩)
  · rw [if_neg hp] at hs
    by_cases hq : port ≠ ki.2.port
    · rw [if_pos hq] at hs
      rcases sendIf_sends st port ki.1 ki.2.latency force with h | h <;> rw [h] at hs
      · exact Or.inl hs
      · rcases List.mem_append.1 hs with hh | hh
        · exact Or.inl hh
        · exact Or.inr (Or.inr ⟨List.mem_singleton.1 hh, hq⟩)
    · rw [if_neg hq] at hs
      exact Or.inl hs

theorem foldl_mainStep_sends (poison force : Bool) (port : Nat)
    (fwd : ForwardingTable) :
    ∀ (st : History × List Sent) (s : Sent),
      s ∈ (fwd.foldl (mainStep poison force port) st).2 →
      s ∈ st.2 ∨ ∃ ki ∈ fwd,
        (s = (port, ki.1, INFINITY) ∧ poison = true ∧ port = ki.2.port) ∨
        (s = (port, ki.1, ki.2.latency) ∧ port ≠ ki.2.port) := by
  induction fwd with
  | nil => intro st s hs; exact Or.inl hs
  | cons ki rest ih =>
    intro st s hs
    rw [List.foldl_cons] at hs
    rcases ih (mainStep poison force port st ki) s hs with h | h
    · rcases mainStep_sends poison force port st ki s h with h1 | h1 | h1
      · exact Or.inl h1
      · exact Or.inr ⟨ki, List.mem_cons_self _ _, Or.inl h1⟩
      · exact Or.inr ⟨ki, List.mem_cons_self _ _, Or.inr h1⟩
    · rcases h with ⟨ki', hki', hsp⟩
      exact Or.inr ⟨ki', List.mem_cons_of_mem _ hki', hsp⟩

theorem mainLoop_sends (r : Router) (force : Bool) :
    ∀ s ∈ (mainLoop r force).2, ∃ ki ∈ r.forwarding_table,
      (s = (s.1, ki.1, INFINITY) ∧ r.poison_mode = true ∧ s.1 = ki.2.port) ∨
      (s = (s.1, ki.1, ki.2.latency) ∧ s.1 ≠ ki.2.port) := by
  unfold mainLoop
  have haux : ∀ (pts : List (Nat × PeerTable)) (st : History × List Sent),
      (∀ s ∈ st.2, ∃ ki ∈ r.forwarding_table,
        (s = (s.1, ki.1, INFINITY) ∧ r.poison_mode = true ∧ s.1 = ki.2.port) ∨
        (s = (s.1, ki.1, ki.2.latency) ∧ s.1 ≠ ki.2.port)) →
      ∀ s ∈ (pts.foldl (fun st pp =>
          r.forwarding_table.foldl (mainStep r.poison_mode force pp.1) st) st).2,
        ∃ ki ∈ r.forwarding_table,
          (s = (s.1, ki.1, INFINITY) ∧ r.poison_mode = true ∧ s.1 = ki.2.port) ∨
          (s = (s.1, ki.1, ki.2.latency) ∧ s.1 ≠ ki.2.port) := by
    intro pts
    induction pts with
    | nil => intro st hst s hs; exact hst s hs
    | cons pp rest ih =>
      intro st hst s hs
      rw [List.foldl_cons] at hs
      refine ih _ ?_ s hs
      intro s' hs'
      rcases foldl_mainStep_sends r.poison_mode force pp.1 r.forwarding_table
          st s' hs' with h | h
      · exact hst s' h
      · rcases h with ⟨ki, hki, hsp | hsp⟩
        · refine ⟨ki, hki, Or.inl ?_⟩
          rw [hsp.1]
          exact ⟨rfl, hsp.2⟩
        · refine ⟨ki, hki, Or.inr ?_⟩
          constructor
          · rw [hsp.1]
          · rw [hsp.1]
            exact hsp.2
  intro s hs
  exact haux r.peer_tables (r.history, []) (fun s' hs' => absurd hs' (by simp)) s hs

theorem efBlock_fields (fwd : ForwardingTable) (port : Nat) (host : String)
    (st : PassSt) :
    (efBlock fwd port host st).1.sends = st.sends ∧
    (efBlock fwd port host st).1.tempList = st.tempList ∧
    (efBlock fwd port host st).1.history = st.history := by
  unfold efBlock
  split_ifs <;> exact ⟨rfl, rfl, rfl⟩

theorem maintScanA_fields (port : Nat) (host : String) (st : PassSt)
    (kv : String × ForwardingTableEntry) :
    (maintScanA port host st kv).sends = st.sends ∧
    (maintScanA port host st kv).emptyFwdTableList = st.emptyFwdTableList := by
  unfold maintScanA
  split_ifs <;> exact ⟨rfl, rfl⟩

theorem maintScanB_fields (rfp : List (String × Nat)) (port : Nat)
    (host : String) (st : PassSt) (kv : String × ForwardingTableEntry) :
    (maintScanB rfp port host st kv).sends = st.sends ∧
    (maintScanB rfp port host st kv).emptyFwdTableList = st.emptyFwdTableList := by
  unfold maintScanB
  split_ifs <;> exact ⟨rfl, rfl⟩

theorem foldl_scanA_fields (port : Nat) (host : String) (fwd : ForwardingTable) :
    ∀ st : PassSt,
      (fwd.foldl (maintScanA port host) st).sends = st.sends ∧
      (fwd.foldl (maintScanA port host) st).emptyFwdTableList
        = st.emptyFwdTableList := by
  induction fwd with
  | nil => intro st; exact ⟨rfl, rfl⟩
  | cons kv rest ih =>
    intro st
    rw [List.foldl_cons]
    refine ⟨?_, ?_⟩
    · rw [(ih _).1, (maintScanA_fields port host st kv).1]
    · rw [(ih _).2, (maintScanA_fields port host st kv).2]

theorem foldl_scanB_fields (rfp : List (String × Nat)) (port : Nat)
    (host : String) (fwd : ForwardingTable) :
    ∀ st : PassSt,
      (fwd.foldl (maintScanB rfp port host) st).sends = st.sends ∧
      (fwd.foldl (maintScanB rfp port host) st).emptyFwdTableList
        = st.emptyFwdTableList := by
  induction fwd with
  | nil => intro st; exact ⟨rfl, rfl⟩
  | cons kv rest ih =>
    intro st
    rw [List.foldl_cons]
    refine ⟨?_, ?_⟩
    · rw [(ih _).1, (maintScanB_fields rfp port host st kv).1]
    · rw [(ih _).2, (maintScanB_fields rfp port host st kv).2]

theorem maintBlock_sends (fwd : ForwardingTable) (rfp : List (String × Nat))
    (port : Nat) (host : String) (st : PassSt) :
    (maintBlock fwd rfp port host st).1.sends = st.sends := by
  unfold maintBlock
  cases lookupA st.history (port, host) with
  | none => rfl
  | some val =>
    dsimp only
    split_ifs
    · exact (efBlock_fields fwd port host st).1
    · rw [(foldl_scanA_fields port host fwd _).1,
        (efBlock_fields fwd port host st).1]
    · exact (efBlock_fields fwd port host st).1
    · rw [(foldl_scanB_fields rfp port host fwd _).1,
        (efBlock_fields fwd port host st).1]

theorem sendBlock_sends (rfp tr : List (String × Nat)) (port : Nat)
    (host : String) (st : PassSt) :
    (sendBlock rfp tr port host st).sends = st.sends ∨
    (sendBlock rfp tr port host st).sends
      = st.sends ++ [(port, host, INFINITY)] := by
  unfold sendBlock
  split_ifs <;> first | exact Or.inl rfl | exact Or.inr rfl

theorem remPortStep_sends (force : Bool) (fwd : ForwardingTable)
    (ph rfp tr : List (String × Nat)) (rem : String × Nat) (port : Nat)
    (st : PassSt) :
    ∀ s ∈ (remPortStep force fwd ph rfp tr rem port st).1.sends,
      s ∈ st.sends ∨ s = (port, rem.1, INFINITY) := by
  intro s hs
  unfold remPortStep at hs
  by_cases hbrk : force = false ∧ rem ∉ ph
  · rw [if_pos hbrk] at hs
    exact Or.inl hs
  · rw [if_neg hbrk] at hs
    dsimp only at hs
    set m := (if force = true then maintBlock fwd rfp port rem.1 st
      else (st, false)) with hm
    have hms : m.1.sends = st.sends := by
      rw [hm]
      by_cases hf : force = true
      · rw [if_pos hf]
        exact maintBlock_sends fwd rfp port rem.1 st
      · rw [if_neg hf]
    by_cases h2 : m.2 = true
    · rw [if_pos h2] at hs
      rw [show ((m.1, true) : PassSt × Bool).1.sends = m.1.sends from rfl,
        hms] at hs
      exact Or.inl hs
    · rw [if_neg h2] at hs
      rw [show ((sendBlock rfp tr port rem.1 m.1, false) : PassSt × Bool).1.sends
          = (sendBlock rfp tr port rem.1 m.1).sends from rfl] at hs
      rcases sendBlock_sends rfp tr port rem.1 m.1 with hh | hh <;> rw [hh] at hs
      · rw [hms] at hs
        exact Or.inl hs
      · rcases List.mem_append.1 hs with h3 | h3
        · rw [hms] at h3
          exact Or.inl h3
        · exact Or.inr (List.mem_singleton.1 h3)

theorem remPortsLoop_sends (force : Bool) (fwd : ForwardingTable)
    (ph rfp tr : List (String × Nat)) (rem : String × Nat) :
    ∀ (ports : List Nat) (st : PassSt),
      ∀ s ∈ (remPortsLoop force fwd ph rfp tr rem ports st).sends,
        s ∈ st.sends ∨ s.2.2 = INFINITY := by
  intro ports
  induction ports with
  | nil => intro st s hs; exact Or.inl hs
  | cons p rest ih =>
    intro st s hs
    unfold remPortsLoop at hs
    by_cases hb : (remPortStep force fwd ph rfp tr rem p st).2 = true
    · rw [if_pos hb] at hs
      rcases remPortStep_sends force fwd ph rfp tr rem p st s hs with h | h
      · exact Or.inl h
      · right
        rw [h]
    · rw [if_neg hb] at hs
      rcases ih _ s hs with h | h
      · rcases remPortStep_sends force fwd ph rfp tr rem p st s h with h1 | h1
        · exact Or.inl h1
        · right
          rw [h1]
      · exact Or.inr h

theorem remLoop_sends (force : Bool) (fwd : ForwardingTable)
    (ph rfp tr : List (String × Nat)) (ports : List Nat) :
    ∀ (rems : List (String × Nat)) (st : PassSt),
      ∀ s ∈ (remLoop force fwd ph rfp tr ports rems st).sends,
        s ∈ st.sends ∨ s.2.2 = INFINITY := by
  intro rems
  induction rems with
  | nil => intro st s hs; exact Or.inl hs
  | cons rem rest ih =>
    intro st s hs
    unfold remLoop at hs
    rcases ih _ s hs with h | h
    · exact remPortsLoop_sends force fwd ph rfp tr rem ports st s h
    · exact Or.inr h

/-- C2: whenever the forwarding table's best route to destination D
egresses via port P (and the table has one entry per destination, as the
source always builds it), any RoutePacket for D that send_routes
transmits on port P has cost INFINITY and can only happen in poison
mode: in particular no finite cost for D is ever advertised on P, and in
split-horizon-only mode nothing for D is sent on P at all. -/
theorem C2_split_horizon_poison (r : Router) (force : Bool) (D : String)
    (e : ForwardingTableEntry) (c : Int)
    (hnd : (r.forwarding_table.map Prod.fst).Nodup)
    (he : lookupA r.forwarding_table D = some e)
    (hs : (e.port, D, c) ∈ (send_routes force r).2) :
    r.poison_mode = true ∧ c = INFINITY := by
  have hmain : (e.port, D, c) ∈ (mainLoop r force).2 →
      r.poison_mode = true ∧ c = INFINITY := by
    intro hsm
    rcases mainLoop_sends r force _ hsm with ⟨ki, hki, ⟨h1, h2, h3⟩ | ⟨h1, h2⟩⟩
    · simp only [Prod.mk.injEq] at h1
      exact ⟨h2, h1.2.2⟩
    · simp only [Prod.mk.injEq] at h1
      exfalso
      have hD : D = ki.1 := h1.2.1
      have hmem2 : (D, ki.2) ∈ r.forwarding_table := by
        rw [hD]
        simpa using hki
      have hlk := mem_lookupA_nodup hnd hmem2
      rw [he] at hlk
      cases hlk
      exact h2 rfl
  unfold send_routes at hs
  dsimp only at hs
  by_cases hp : r.poison_mode
  · rw [if_pos hp] at hs
    rcases remLoop_sends force r.forwarding_table r.poisonedHosts
        r.removedFromPoisonedHosts r.trickledHosts
        (r.peer_tables.map Prod.fst) r.removedHosts _ _ hs with h | h
    · exact hmain h
    · exact ⟨hp, h⟩
  · rw [if_neg hp] at hs
    have := hmain hs
    exact absurd this.1 (by simpa using hp)

theorem C2_split_horizon_poison_witness :
    ((wC2.forwarding_table.map Prod.fst).Nodup) ∧
    (lookupA wC2.forwarding_table "B" = some ⟨"B", 1, 3⟩) ∧
    ((1, "B", (16 : Int)) ∈ (send_routes false wC2).2) ∧
    (wC2.poison_mode = true ∧ (16 : Int) = INFINITY) :=
  ⟨by decide, by decide, by decide,
    C2_split_horizon_poison wC2 false "B" ⟨"B", 1, 3⟩ 16
      (by decide) (by decide) (by decide)⟩

/-- C10: when POISON_MODE is false, every advertisement send_routes
transmits (under either force value) is for a destination present in the
forwarding table: the withdrawn-destination poisoning pass is guarded by
POISON_MODE, so withdrawn destinations are never announced in
split-horizon-only mode. -/
theorem C10_no_poison_no_withdrawn (r : Router) (force : Bool)
    (h : r.poison_mode = false) (p : Nat) (d : String) (cst : Int)
    (hs : (p, d, cst) ∈ (send_routes force r).2) :
    d ∈ r.forwarding_table.map Prod.fst := by
  unfold send_routes at hs
  dsimp only at hs
  rw [h] at hs
  simp only [Bool.false_eq_true, if_false] at hs
  rcases mainLoop_sends r force _ hs with ⟨ki, hki, ⟨h1, h2, h3⟩ | ⟨h1, h2⟩⟩
  · rw [h] at h2
    cases h2
  · simp only [Prod.mk.injEq] at h1
    rw [h1.2.1]
    exact List.mem_map_of_mem Prod.fst hki

theorem C10_no_poison_no_withdrawn_witness :
    (wC10.poison_mode = false) ∧
    ((2, "B", (3 : Int)) ∈ (send_routes false wC10).2) ∧
    "B" ∈ wC10.forwarding_table.map Prod.fst :=
  ⟨by decide, by decide,
    C10_no_poison_no_withdrawn wC10 false (by decide) 2 "B" 3 (by decide)⟩

theorem uftStep_le (r : Router) (port : Nat) (ft : ForwardingTable)
    (hv : String × PeerTableEntry)
    (h : ∀ kv ∈ ft, kv.2.latency ≤ INFINITY) :
    ∀ kv ∈ uftStep r port ft hv, kv.2.latency ≤ INFINITY := by
  intro kv hkv
  unfold uftStep at hkv
  dsimp only at hkv
  cases hlk : lookupA ft hv.1 with
  | none =>
    rw [hlk] at hkv
    dsimp only at hkv
    rcases mem_insertA hkv with h1 | h1
    · rw [h1] <;> dsimp only <;> (try simp only [INFINITY] at *) <;>
        (try split_ifs) <;> omega
    · exact h kv h1
  | some prev =>
    rw [hlk] at hkv
    dsimp only at hkv
    split_ifs at hkv <;>
      first
      | exact h kv hkv
      | (rcases mem_insertA hkv with h1 | h1
         · rw [h1] <;> dsimp only <;> (try simp only [INFINITY] at *) <;>
             (try split_ifs) <;> omega
         · exact h kv h1)

theorem update_forwarding_table_le (r : Router) :
    ∀ kv ∈ (update_forwarding_table r).forwarding_table,
      kv.2.latency ≤ INFINITY := by
  unfold update_forwarding_table
  dsimp only
  have haux : ∀ (pts : List (Nat × PeerTable)) (ft : ForwardingTable),
      (∀ kv ∈ ft, kv.2.latency ≤ INFINITY) →
      ∀ kv ∈ pts.foldl (fun ft pp => pp.2.foldl (uftStep r pp.1) ft) ft,
        kv.2.latency ≤ INFINITY := by
    intro pts
    induction pts with
    | nil => intro ft h kv hkv; exact h kv hkv
    | cons pp rest ih =>
      intro ft h kv hkv
      rw [List.foldl_cons] at hkv
      refine ih _ ?_ kv hkv
      have hinner : ∀ (l : List (String × PeerTableEntry)) (ft : ForwardingTable),
          (∀ kv ∈ ft, kv.2.latency ≤ INFINITY) →
          ∀ kv ∈ l.foldl (uftStep r pp.1) ft, kv.2.latency ≤ INFINITY := by
        intro l
        induction l with
        | nil => intro ft h kv hkv; exact h kv hkv
        | cons hv tl ih2 =>
          intro ft h kv hkv
          rw [List.foldl_cons] at hkv
          exact ih2 _ (uftStep_le r pp.1 ft hv h) kv hkv
      exact hinner pp.2 ft h
  exact haux r.peer_tables [] (by simp)

theorem send_routes_keeps (force : Bool) (r : Router) :
    (send_routes force r).1.peer_tables = r.peer_tables ∧
    (send_routes force r).1.forwarding_table = r.forwarding_table ∧
    (send_routes force r).1.poison_mode = r.poison_mode ∧
    (send_routes force r).1.link_latency = r.link_latency ∧
    (send_routes force r).1.removedHosts = r.removedHosts ∧
    (send_routes force r).1.trickledHosts = r.trickledHosts :=
  ⟨rfl, rfl, rfl, rfl, rfl, rfl⟩

/-- C9 amended: handle_route_advertisement stores the neighbor-supplied
latency raw (unclamped) in the peer table with expiry now + ROUTE_TTL,
and the only clamping anywhere is the upper cap applied when the
forwarding table is rebuilt: every forwarding-table latency after the
call is at most INFINITY, but nothing enforces a lower bound of zero. -/
theorem C9_clamp_amended (r : Router) (dst : String) (port : Nat)
    (route_latency now : Int) (r' : Router) (out : List Sent)
    (h : handle_route_advertisement r dst port route_latency now
      = some (r', out)) :
    (∀ kv ∈ r'.forwarding_table, kv.2.latency ≤ INFINITY) ∧
    (∃ pt', lookupA r'.peer_tables port = some pt' ∧
      lookupA pt' dst = some ⟨dst, route_latency, some (now + ROUTE_TTL)⟩) := by
  unfold handle_route_advertisement at h
  cases hpt : lookupA r.peer_tables port with
  | none =>
    rw [hpt] at h
    cases h
  | some pt =>
    rw [hpt] at h
    dsimp only at h
    injection h with h
    have hr' : r' = (send_routes false (update_forwarding_table
        { r with peer_tables := insertA r.peer_tables port (insertA pt dst ⟨dst, route_latency, some (now + ROUTE_TTL)⟩) })).1 := by
      rw [h]
    constructor
    · intro kv hkv
      rw [hr'] at hkv
      rw [(send_routes_keeps false _).2.1] at hkv
      exact update_forwarding_table_le _ kv hkv
    · refine ⟨insertA pt dst ⟨dst, route_latency, some (now + ROUTE_TTL)⟩, ?_, ?_⟩
      · rw [hr', (send_routes_keeps false _).1]
        exact lookupA_insertA_self r.peer_tables port _
      · exact lookupA_insertA_self pt dst _

theorem C9_clamp_amended_witness :
    (handle_route_advertisement sC9 "B" 1 5 0 = some (wC9r.1, wC9r.2)) ∧
    ((∀ kv ∈ wC9r.1.forwarding_table, kv.2.latency ≤ INFINITY) ∧
     (∃ pt', lookupA wC9r.1.peer_tables 1 = some pt' ∧
       lookupA pt' "B" = some ⟨"B", 5, some (0 + ROUTE_TTL)⟩)) :=
  ⟨by decide, C9_clamp_amended sC9 "B" 1 5 0 wC9r.1 wC9r.2 (by decide)⟩

/-! Lemmas about eraseA and the force-false shape of the removed pass,
used by the link-down and suppression claims. -/

theorem lookupA_eraseA_ne {α β : Type} [DecidableEq α] (l : List (α × β))
    (a a' : α) (h : a' ≠ a) : lookupA (eraseA l a) a' = lookupA l a' := by
  induction l with
  | nil => rfl
  | cons kv rest ih =>
    by_cases hk : kv.1 = a
    · have : kv.1 ≠ a' := fun hh => h ((hk ▸ hh : a = a').symm ▸ rfl)
      simp only [eraseA, List.filter_cons]
      rw [if_neg (by simpa using hk)]
      rw [show List.filter (fun p => decide (p.1 ≠ a)) rest = eraseA rest a from rfl, ih]
      simp only [lookupA, if_neg this]
    · simp only [eraseA, List.filter_cons]
      rw [if_pos (by simpa using hk)]
      simp only [lookupA]
      by_cases hk' : kv.1 = a'
      · rw [if_pos hk', if_pos hk']
      · rw [if_neg hk', if_neg hk']
        exact ih

theorem mem_eraseA {α β : Type} [DecidableEq α] {l : List (α × β)} {a : α}
    {x : α × β} (h : x ∈ eraseA l a) : x ∈ l ∧ x.1 ≠ a := by
  unfold eraseA at h
  have := List.mem_filter.1 h
  exact ⟨this.1, by simpa using this.2⟩

theorem keys_eraseA_nodup {α β : Type} [DecidableEq α] (l : List (α × β))
    (a : α) (h : (l.map Prod.fst).Nodup) :
    ((eraseA l a).map Prod.fst).Nodup := by
  induction l with
  | nil => exact h
  | cons kv rest ih =>
    simp only [List.map_cons, List.nodup_cons] at h
    by_cases hk : kv.1 = a
    · simp only [eraseA, List.filter_cons]
      rw [if_neg (by simpa using hk)]
      exact ih h.2
    · simp only [eraseA, List.filter_cons]
      rw [if_pos (by simpa using hk)]
      simp only [List.map_cons, List.nodup_cons]
      refine ⟨fun hm => ?_, ih h.2⟩
      have := (List.mem_map.1 hm)
      rcases this with ⟨y, hy, hyk⟩
      have hyl := (mem_eraseA hy).1
      exact h.1 (hyk ▸ List.mem_map_of_mem Prod.fst hyl)

theorem remPortStep_false (fwd : ForwardingTable)
    (ph rfp tr : List (String × Nat)) (rem : String × Nat) (port : Nat)
    (st : PassSt) :
    remPortStep false fwd ph rfp tr rem port st
      = if rem ∈ ph then (sendBlock rfp tr port rem.1 st, false)
        else (st, true) := by
  unfold remPortStep
  by_cases hm : rem ∈ ph
  · rw [if_neg (by simp [hm]), if_neg (by simp), if_pos hm]
    rfl
  · rw [if_pos (by simp [hm]), if_neg hm]

theorem sendBlock_keeps (rfp tr : List (String × Nat)) (port : Nat)
    (host : String) (st : PassSt) :
    (sendBlock rfp tr port host st).tempList = st.tempList ∧
    (sendBlock rfp tr port host st).emptyFwdTableList = st.emptyFwdTableList := by
  unfold sendBlock
  split_ifs <;> exact ⟨rfl, rfl⟩

theorem sendBlock_skip (rfp tr : List (String × Nat)) (port : Nat)
    (host : String) (st : PassSt)
    (h : ¬((lookupA st.history (port, host)).isNone ∨
        ¬st.emptyFwdTableList.isEmpty)) :
    sendBlock rfp tr port host st = st := by
  unfold sendBlock
  rw [if_neg h]

theorem sendBlock_fires (rfp tr : List (String × Nat)) (port : Nat)
    (host : String) (st : PassSt)
    (h : (lookupA st.history (port, host)).isNone ∨
        ¬st.emptyFwdTableList.isEmpty)
    (h1 : (port, host) ∉ st.tempList)
    (h2 : (host, port) ∉ rfp) (h3 : (host, port) ∉ tr) :
    sendBlock rfp tr port host st
      = { st with
          history := insertA st.history (port, host) ⟨host, port, INFINITY⟩,
          sends := st.sends ++ [(port, host, INFINITY)] } := by
  unfold sendBlock
  rw [if_pos h, if_neg h1, if_neg h2, if_neg h3]

theorem sendBlock_guard (rfp tr : List (String × Nat)) (port : Nat)
    (host : String) (st : PassSt)
    (h : (port, host) ∈ st.tempList ∨ (host, port) ∈ rfp ∨ (host, port) ∈ tr) :
    sendBlock rfp tr port host st = st := by
  unfold sendBlock
  by_cases hc : (lookupA st.history (port, host)).isNone ∨
      ¬st.emptyFwdTableList.isEmpty
  · rw [if_pos hc]
    rcases h with h | h | h
    · rw [if_pos h]
    · by_cases h1 : (port, host) ∈ st.tempList
      · rw [if_pos h1]
      · rw [if_neg h1, if_pos h]
    · by_cases h1 : (port, host) ∈ st.tempList
      · rw [if_pos h1]
      · by_cases h2 : (host, port) ∈ rfp
        · rw [if_neg h1, if_pos h2]
        · rw [if_neg h1, if_neg h2, if_pos h]
  · rw [if_neg hc]

/-! History-shape lemmas for the main advertisement loop, and
forwarding-table rebuild lemmas, used by the link-down claim. -/

theorem sendIf_hist (st : History × List Sent) (port : Nat) (key : String)
    (cost : Int) (force : Bool) :
    (sendIf st port key cost force).1 = st.1 ∨
    (sendIf st port key cost force).1
      = insertA st.1 (port, key) ⟨key, port, cost⟩ := by
  unfold sendIf
  split_ifs
  · cases lookupA st.1 (port, key) with
    | none => exact Or.inr rfl
    | some v =>
      dsimp only
      split_ifs
      · exact Or.inr rfl
      · exact Or.inl rfl
  · exact Or.inr rfl

theorem mainStep_hist (poison force : Bool) (port : Nat)
    (st : History × List Sent) (ki : String × ForwardingTableEntry) :
    (mainStep poison force port st ki).1 = st.1 ∨
    (mainStep poison force port st ki).1
      = insertA st.1 (port, ki.1) ⟨ki.1, port, INFINITY⟩ ∨
    (mainStep poison force port st ki).1
      = insertA st.1 (port, ki.1) ⟨ki.1, port, ki.2.latency⟩ := by
  unfold mainStep
  dsimp only
  split_ifs
  · rcases sendIf_hist st port ki.1 INFINITY force with h | h
    · exact Or.inl h
    · exact Or.inr (Or.inl h)
  · rcases sendIf_hist st port ki.1 ki.2.latency force with h | h
    · exact Or.inl h
    · exact Or.inr (Or.inr h)
  · rcases sendIf_hist st port ki.1 ki.2.latency force with h | h
    · exact Or.inl h
    · exact Or.inr (Or.inr h)
  · exact Or.inl rfl

theorem mainLoop_hist_other (r : Router) (force : Bool) (k : Nat × String)
    (hk : ∀ kv ∈ r.forwarding_table, kv.1 ≠ k.2) :
    lookupA (mainLoop r force).1 k = lookupA r.history k := by
  unfold mainLoop
  have hstep : ∀ (port : Nat) (st : History × List Sent)
      (ki : String × ForwardingTableEntry), ki ∈ r.forwarding_table →
      lookupA (mainStep r.poison_mode force port st ki).1 k = lookupA st.1 k := by
    intro port st ki hki
    have hne : ∀ c : ForwardingTableEntry,
        lookupA (insertA st.1 (port, ki.1) c) k = lookupA st.1 k := by
      intro c
      refine lookupA_insertA_ne st.1 (port, ki.1) k c ?_
      intro hh
      exact hk ki hki (by rw [hh])
    rcases mainStep_hist r.poison_mode force port st ki with h | h | h
    · rw [h]
    · rw [h]
      exact hne _
    · rw [h]
      exact hne _
  have hinner : ∀ (l : ForwardingTable), (∀ ki ∈ l, ki ∈ r.forwarding_table) →
      ∀ (port : Nat) (st : History × List Sent),
      lookupA (l.foldl (mainStep r.poison_mode force port) st).1 k
        = lookupA st.1 k := by
    intro l
    induction l with
    | nil => intro _ port st; rfl
    | cons ki rest ih =>
      intro hmem port st
      rw [List.foldl_cons,
        ih (fun x hx => hmem x (List.mem_cons_of_mem _ hx)) port _,
        hstep port st ki (hmem ki (List.mem_cons_self _ _))]
  have houter : ∀ (pts : List (Nat × PeerTable)) (st : History × List Sent),
      lookupA (pts.foldl (fun st pp =>
        r.forwarding_table.foldl (mainStep r.poison_mode force pp.1) st) st).1 k
        = lookupA st.1 k := by
    intro pts
    induction pts with
    | nil => intro st; rfl
    | cons pp rest ih =>
      intro st
      rw [List.foldl_cons, ih _, hinner r.forwarding_table (fun x hx => hx) pp.1 st]
  exact houter r.peer_tables (r.history, [])

theorem uftStep_lookup_ne (r : Router) (port : Nat) (ft : ForwardingTable)
    (hv : String × PeerTableEntry) (B : String) (hB : hv.1 ≠ B) :
    lookupA (uftStep r port ft hv) B = lookupA ft B := by
  unfold uftStep
  dsimp only
  cases lookupA ft hv.1 with
  | none => exact lookupA_insertA_ne ft hv.1 B _ (fun hh => hB hh.symm)
  | some prev =>
    dsimp only
    split_ifs <;>
      first
      | exact lookupA_insertA_ne ft hv.1 B _ (fun hh => hB hh.symm)
      | rfl

theorem update_forwarding_table_none (r : Router) (B : String)
    (h : ∀ pp ∈ r.peer_tables, lookupA pp.2 B = none) :
    lookupA (update_forwarding_table r).forwarding_table B = none := by
  unfold update_forwarding_table
  dsimp only
  have hinner : ∀ (port : Nat) (l : List (String × PeerTableEntry)),
      (∀ hv ∈ l, hv.1 ≠ B) → ∀ ft : ForwardingTable,
      lookupA (l.foldl (uftStep r port) ft) B = lookupA ft B := by
    intro port l
    induction l with
    | nil => intro _ ft; rfl
    | cons hv rest ih =>
      intro hmem ft
      rw [List.foldl_cons, ih (fun x hx => hmem x (List.mem_cons_of_mem _ hx)) _,
        uftStep_lookup_ne r port ft hv B (hmem hv (List.mem_cons_self _ _))]
  have houter : ∀ (pts : List (Nat × PeerTable)),
      (∀ pp ∈ pts, lookupA pp.2 B = none) → ∀ ft : ForwardingTable,
      lookupA (pts.foldl (fun ft pp => pp.2.foldl (uftStep r pp.1) ft) ft) B
        = lookupA ft B := by
    intro pts
    induction pts with
    | nil => intro _ ft; rfl
    | cons pp rest ih =>
      intro hmem ft
      rw [List.foldl_cons, ih (fun x hx => hmem x (List.mem_cons_of_mem _ hx)) _]
      refine hinner pp.1 pp.2 ?_ ft
      intro hv hhv heq
      have : B ∈ pp.2.map Prod.fst := heq ▸ List.mem_map_of_mem Prod.fst hhv
      exact (lookupA_eq_none_iff pp.2 B).1 (hmem pp (List.mem_cons_self _ _)) this
  rw [houter r.peer_tables h []]
  rfl

/-! Lemmas about the link-down scan and history cleanup. -/

theorem ldStep_keep (port : Nat) (B : String) (orig : ForwardingTable)
    (hwf : ∀ kv ∈ orig, kv.2.dst = kv.1) (x : String) (hx : x ≠ B)
    (acc : ForwardingTable × List (String × Nat) × List (String × Nat))
    (hsub : ∀ kv ∈ acc.1, kv ∈ orig) :
    (∀ kv ∈ (ldStep port acc x).1, kv ∈ orig) ∧
    lookupA (ldStep port acc x).1 B = lookupA acc.1 B ∧
    (ldStep port acc x).2.1.filter (fun p => decide (p.1 = B))
      = acc.2.1.filter (fun p => decide (p.1 = B)) ∧
    (ldStep port acc x).2.2.filter (fun p => decide (p.1 = B))
      = acc.2.2.filter (fun p => decide (p.1 = B)) := by
  unfold ldStep
  cases hlk : lookupA acc.1 x with
  | none => exact ⟨hsub, rfl, rfl, rfl⟩
  | some e =>
    dsimp only
    have hdst : e.dst = x := hwf (x, e) (hsub _ (lookupA_mem hlk))
    by_cases h1 : e.port = port
    · by_cases h2 : (e.dst, port) ∉ acc.2.1
      · rw [if_pos h1, if_pos h2]
        refine ⟨?_, ?_, ?_, ?_⟩
        · intro kv hkv
          exact hsub kv (mem_eraseA hkv).1
        · exact lookupA_eraseA_ne acc.1 x B (fun hh => hx hh.symm)
        · rw [List.filter_append]
          simp [hdst, hx]
        · rw [List.filter_append]
          simp [hdst, hx]
      · rw [if_pos h1, if_neg h2]
        exact ⟨hsub, rfl, rfl, rfl⟩
    · rw [if_neg h1]
      exact ⟨hsub, rfl, rfl, rfl⟩

theorem ldScan_keep (port : Nat) (B : String) (orig : ForwardingTable)
    (hwf : ∀ kv ∈ orig, kv.2.dst = kv.1) :
    ∀ (ks : List String), B ∉ ks →
    ∀ acc, (∀ kv ∈ acc.1, kv ∈ orig) →
      (∀ kv ∈ (ks.foldl (ldStep port) acc).1, kv ∈ orig) ∧
      lookupA (ks.foldl (ldStep port) acc).1 B = lookupA acc.1 B ∧
      (ks.foldl (ldStep port) acc).2.1.filter (fun p => decide (p.1 = B))
        = acc.2.1.filter (fun p => decide (p.1 = B)) ∧
      (ks.foldl (ldStep port) acc).2.2.filter (fun p => decide (p.1 = B))
        = acc.2.2.filter (fun p => decide (p.1 = B)) := by
  intro ks
  induction ks with
  | nil => intro _ acc hsub; exact ⟨hsub, rfl, rfl, rfl⟩
  | cons x rest ih =>
    intro hB acc hsub
    have hx : x ≠ B := fun hh => hB (hh ▸ List.mem_cons_self _ _)
    have hstep := ldStep_keep port B orig hwf x hx acc hsub
    have hrest := ih (fun hh => hB (List.mem_cons_of_mem _ hh))
      (ldStep port acc x) hstep.1
    rw [List.foldl_cons]
    refine ⟨hrest.1, ?_, ?_, ?_⟩
    · rw [hrest.2.1, hstep.2.1]
    · rw [hrest.2.2.1, hstep.2.2.1]
    · rw [hrest.2.2.2, hstep.2.2.2]

theorem ldStep_atB (port : Nat) (B : String) (orig : ForwardingTable)
    (hwf : ∀ kv ∈ orig, kv.2.dst = kv.1)
    (acc : ForwardingTable × List (String × Nat) × List (String × Nat))
    (hsub : ∀ kv ∈ acc.1, kv ∈ orig) (e : ForwardingTableEntry)
    (hlk : lookupA acc.1 B = some e) (hport : e.port = port)
    (hr : acc.2.1.filter (fun p => decide (p.1 = B)) = [])
    (hp : acc.2.2.filter (fun p => decide (p.1 = B)) = []) :
    (∀ kv ∈ (ldStep port acc B).1, kv ∈ orig) ∧
    (ldStep port acc B).2.1.filter (fun p => decide (p.1 = B)) = [(B, port)] ∧
    (ldStep port acc B).2.2.filter (fun p => decide (p.1 = B)) = [(B, port)] := by
  unfold ldStep
  rw [hlk]
  dsimp only
  have hdst : e.dst = B := hwf (B, e) (hsub _ (lookupA_mem hlk))
  have hnew : (e.dst, port) ∉ acc.2.1 := by
    intro hm
    have : (e.dst, port) ∈ acc.2.1.filter (fun p => decide (p.1 = B)) :=
      List.mem_filter.2 ⟨hm, by simp [hdst]⟩
    rw [hr] at this
    cases this
  rw [if_pos hport, if_pos hnew]
  refine ⟨?_, ?_, ?_⟩
  · intro kv hkv
    exact hsub kv (mem_eraseA hkv).1
  · rw [List.filter_append, hr]
    simp [hdst]
  · rw [List.filter_append, hp]
    simp [hdst]

theorem lookupA_filter_none {α β : Type} [DecidableEq α] (l : List (α × β))
    (p : α × β → Bool) (k : α) (hp : ∀ b : β, p (k, b) = false) :
    lookupA (l.filter p) k = none := by
  induction l with
  | nil => rfl
  | cons kv rest ih =>
    by_cases hk : kv.1 = k
    · have hkv : p kv = false := by
        have := hp kv.2
        rw [← hk] at this
        simpa using this
      rw [List.filter_cons, hkv]
      exact ih
    · rw [List.filter_cons]
      cases hpkv : p kv with
      | false => exact ih
      | true =>
        simp only [if_pos rfl]
        simp only [lookupA, if_neg hk]
        exact ih

theorem lookupA_filter_of_none {α β : Type} [DecidableEq α] (l : List (α × β))
    (p : α × β → Bool) (k : α) (h : lookupA l k = none) :
    lookupA (l.filter p) k = none := by
  rw [lookupA_eq_none_iff] at h ⊢
  intro hm
  rcases List.mem_map.1 hm with ⟨x, hx, hxk⟩
  exact h (hxk ▸ List.mem_map_of_mem Prod.fst (List.mem_of_mem_filter hx))

theorem ldHist_none_preserved :
    ∀ (elems : List (String × Nat)) (h : History) (k : Nat × String),
      lookupA h k = none → lookupA (elems.foldl ldHistStep h) k = none := by
  intro elems
  induction elems with
  | nil => intro h k hk; exact hk
  | cons elem rest ih =>
    intro h k hk
    rw [List.foldl_cons]
    exact ih _ k (lookupA_filter_of_none h _ k hk)

theorem ldHist_kill (B : String) (P : Nat) :
    ∀ (elems : List (String × Nat)) (h : History),
      (B, P) ∈ elems → ∀ q, q ≠ P →
      lookupA (elems.foldl ldHistStep h) (q, B) = none := by
  intro elems
  induction elems with
  | nil => intro h hm; cases hm
  | cons elem rest ih =>
    intro h hm q hq
    rw [List.foldl_cons]
    rcases List.mem_cons.1 hm with hh | hh
    · refine ldHist_none_preserved rest _ (q, B) ?_
      unfold ldHistStep
      refine lookupA_filter_none h _ (q, B) ?_
      intro b
      rw [← hh]
      have hpq : ¬P = q := fun hh2 => hq hh2.symm
      simp [hpq]
    · exact ih _ hh q hq

theorem mainLoop_sends_noB (r : Router) (force : Bool) (B : String)
    (hB : lookupA r.forwarding_table B = none) :
    (mainLoop r force).2.filter (fun t => decide (t.2.1 = B)) = [] := by
  rw [List.filter_eq_nil]
  intro s hs
  rcases mainLoop_sends r force s hs with ⟨ki, hki, hc | hc⟩ <;>
  · have hs21 : s.2.1 = ki.1 := by rw [hc.1]
    simp only [decide_eq_true_eq]
    intro hsB
    have : B ∈ r.forwarding_table.map Prod.fst :=
      (hsB ▸ hs21 ▸ List.mem_map_of_mem Prod.fst hki : B ∈ _)
    rw [lookupA_eq_none_iff] at hB
    exact hB this

/-! Behavior of the non-forced removed pass on a freshly withdrawn
destination. -/

theorem sendBlock_cases (rfp tr : List (String × Nat)) (port : Nat)
    (host : String) (st : PassSt) :
    sendBlock rfp tr port host st = st ∨
    sendBlock rfp tr port host st
      = { st with
          history := insertA st.history (port, host) ⟨host, port, INFINITY⟩,
          sends := st.sends ++ [(port, host, INFINITY)] } := by
  unfold sendBlock
  split_ifs <;> first | exact Or.inl rfl | exact Or.inr rfl

theorem remPortsLoop_nonB (B : String) (fwd : ForwardingTable)
    (ph rfp tr : List (String × Nat)) (rem : String × Nat) (hB : rem.1 ≠ B) :
    ∀ (ports : List Nat) (st : PassSt),
      ((remPortsLoop false fwd ph rfp tr rem ports st).sends.filter
          (fun t => decide (t.2.1 = B))
        = st.sends.filter (fun t => decide (t.2.1 = B))) ∧
      (∀ q : Nat,
        lookupA (remPortsLoop false fwd ph rfp tr rem ports st).history (q, B)
          = lookupA st.history (q, B)) ∧
      (remPortsLoop false fwd ph rfp tr rem ports st).tempList = st.tempList := by
  intro ports
  induction ports with
  | nil => intro st; exact ⟨rfl, fun q => rfl, rfl⟩
  | cons p rest ih =>
    intro st
    unfold remPortsLoop
    rw [remPortStep_false]
    by_cases hm : rem ∈ ph
    · rw [if_pos hm]
      dsimp only
      rw [if_neg Bool.false_ne_true]
      rcases sendBlock_cases rfp tr p rem.1 st with hsb | hsb <;> rw [hsb]
      · exact ih st
      · have hrec := ih { st with
          history := insertA st.history (p, rem.1) ⟨rem.1, p, INFINITY⟩,
          sends := st.sends ++ [(p, rem.1, INFINITY)] }
        refine ⟨?_, ?_, ?_⟩
        · rw [hrec.1]
          dsimp only
          rw [List.filter_append]
          simp [hB]
        · intro q
          rw [hrec.2.1 q]
          dsimp only
          refine lookupA_insertA_ne st.history (p, rem.1) (q, B) _ ?_
          intro hh
          exact hB (by cases hh; rfl)
        · rw [hrec.2.2]
    · rw [if_neg hm]
      dsimp only
      rw [if_pos rfl]
      exact ⟨rfl, fun q => rfl, rfl⟩

theorem remPortsLoop_atB (B : String) (P : Nat) (fwd : ForwardingTable)
    (ph rfp tr : List (String × Nat))
    (hph : (B, P) ∈ ph) (hrfp : ∀ q, (B, q) ∉ rfp) (htr : ∀ q, (B, q) ∉ tr) :
    ∀ (ports : List Nat), ports.Nodup →
    ∀ st : PassSt, (∀ q ∈ ports, lookupA st.history (q, B) = none) →
      st.tempList = [] →
      (remPortsLoop false fwd ph rfp tr (B, P) ports st).sends
        = st.sends ++ ports.map (fun q => (q, B, INFINITY)) ∧
      (remPortsLoop false fwd ph rfp tr (B, P) ports st).tempList = [] := by
  intro ports
  induction ports with
  | nil =>
    intro _ st _ htl
    exact ⟨by simp [remPortsLoop], htl⟩
  | cons q rest ih =>
    intro hnd st hhist htl
    simp only [List.nodup_cons] at hnd
    unfold remPortsLoop
    rw [remPortStep_false, if_pos hph]
    dsimp only
    rw [if_neg Bool.false_ne_true]
    have hfire := sendBlock_fires rfp tr q B st
      (Or.inl (by rw [hhist q (List.mem_cons_self _ _)]; rfl))
      (by rw [htl]; exact List.not_mem_nil _) (hrfp q) (htr q)
    rw [hfire]
    have hrec := ih hnd.2 { st with
        history := insertA st.history (q, B) ⟨B, q, INFINITY⟩,
        sends := st.sends ++ [(q, B, INFINITY)] }
      (by
        intro q' hq'
        dsimp only
        rw [lookupA_insertA_ne st.history (q, B) (q', B) _
          (fun hh => hnd.1 (by cases hh; exact hq'))]
        exact hhist q' (List.mem_cons_of_mem _ hq'))
      htl
    refine ⟨?_, hrec.2⟩
    rw [hrec.1]
    dsimp only
    rw [List.append_assoc]
    rfl

theorem remLoop_noB (B : String) (fwd : ForwardingTable)
    (ph rfp tr : List (String × Nat)) (ports : List Nat) :
    ∀ (rems : List (String × Nat)) (st : PassSt),
      rems.filter (fun x => decide (x.1 = B)) = [] →
      (remLoop false fwd ph rfp tr ports rems st).sends.filter
          (fun t => decide (t.2.1 = B))
        = st.sends.filter (fun t => decide (t.2.1 = B)) := by
  intro rems
  induction rems with
  | nil => intro st _; rfl
  | cons rem rest ih =>
    intro st hfil
    have hB : rem.1 ≠ B := by
      intro hh
      have : rem ∈ (rem :: rest).filter (fun x => decide (x.1 = B)) :=
        List.mem_filter.2 ⟨List.mem_cons_self _ _, by simp [hh]⟩
      rw [hfil] at this
      cases this
    have hrest : rest.filter (fun x => decide (x.1 = B)) = [] := by
      rw [List.filter_cons] at hfil
      simp only [hB, decide_eq_true_eq, if_false] at hfil
      exact hfil
    unfold remLoop
    rw [ih _ hrest, (remPortsLoop_nonB B fwd ph rfp tr rem hB ports st).1]

theorem filter_map_ports (B : String) (ports : List Nat) :
    (ports.map (fun q => ((q, B, INFINITY) : Sent))).filter
        (fun t => decide (t.2.1 = B))
      = ports.map (fun q => ((q, B, INFINITY) : Sent)) := by
  induction ports with
  | nil => rfl
  | cons q rest ih => simp [List.filter_cons, ih]

theorem remLoop_linkdown (B : String) (P : Nat) (fwd : ForwardingTable)
    (ph rfp tr : List (String × Nat)) (ports : List Nat)
    (hports : ports.Nodup) (hph : (B, P) ∈ ph)
    (hrfp : ∀ q, (B, q) ∉ rfp) (htr : ∀ q, (B, q) ∉ tr) :
    ∀ (rems : List (String × Nat)) (st : PassSt),
      rems.filter (fun x => decide (x.1 = B)) = [(B, P)] →
      (∀ q ∈ ports, lookupA st.history (q, B) = none) →
      st.tempList = [] →
      (remLoop false fwd ph rfp tr ports rems st).sends.filter
          (fun t => decide (t.2.1 = B))
        = st.sends.filter (fun t => decide (t.2.1 = B))
          ++ ports.map (fun q => (q, B, INFINITY)) := by
  intro rems
  induction rems with
  | nil =>
    intro st hfil
    cases hfil
  | cons rem rest ih =>
    intro st hfil hhist htl
    by_cases hB : rem.1 = B
    · have hfil2 : rem :: rest.filter (fun x => decide (x.1 = B)) = [(B, P)] := by
        rw [List.filter_cons] at hfil
        simpa [hB] using hfil
      obtain ⟨hrem, hrest⟩ : rem = (B, P) ∧
          rest.filter (fun x => decide (x.1 = B)) = [] := by
        injection hfil2 with h1 h2
        exact ⟨h1, h2⟩
      subst hrem
      unfold remLoop
      have hB2 := remPortsLoop_atB B P fwd ph rfp tr hph hrfp htr ports hports
        st hhist htl
      rw [remLoop_noB B fwd ph rfp tr ports rest _ hrest, hB2.1,
        List.filter_append, filter_map_ports]
    · have hrest : rest.filter (fun x => decide (x.1 = B)) = [(B, P)] := by
        rw [List.filter_cons] at hfil
        simpa [hB] using hfil
      unfold remLoop
      have hnp := remPortsLoop_nonB B fwd ph rfp tr rem hB ports st
      rw [ih _ hrest (fun q hq => by rw [hnp.2.1 q]; exact hhist q hq)
        (hnp.2.2.trans htl), hnp.1]

theorem ldScan_full (P : Nat) (B : String) (s : Router)
    (hfk : (s.forwarding_table.map Prod.fst).Nodup)
    (hwf : ∀ kv ∈ s.forwarding_table, kv.2.dst = kv.1)
    (e : ForwardingTableEntry)
    (he : lookupA s.forwarding_table B = some e) (hep : e.port = P)
    (hrem : ∀ q, (B, q) ∉ s.removedHosts)
    (hph0 : ∀ q, (B, q) ∉ s.poisonedHosts) :
    ((s.forwarding_table.map Prod.fst).foldl (ldStep P)
        (s.forwarding_table, s.removedHosts, s.poisonedHosts)).2.1.filter
        (fun p => decide (p.1 = B)) = [(B, P)] ∧
    ((s.forwarding_table.map Prod.fst).foldl (ldStep P)
        (s.forwarding_table, s.removedHosts, s.poisonedHosts)).2.2.filter
        (fun p => decide (p.1 = B)) = [(B, P)] := by
  have hBk : B ∈ s.forwarding_table.map Prod.fst := by
    rw [← lookupA_isSome_iff, he]
    rfl
  obtain ⟨l1, l2, hsplit⟩ := List.append_of_mem hBk
  have hnd := hfk
  rw [hsplit, List.nodup_append] at hnd
  have hB2 : B ∉ l2 := by
    have := hnd.2.1
    rw [List.nodup_cons] at this
    exact this.1
  have hB1 : B ∉ l1 := fun hm => hnd.2.2 hm (List.mem_cons_self _ _)
  have hfilr : s.removedHosts.filter (fun p => decide (p.1 = B)) = [] := by
    rw [List.filter_eq_nil]
    intro a ha
    simp only [decide_eq_true_eq]
    intro h
    refine hrem a.2 ?_
    rw [← h]
    simpa using ha
  have hfilp : s.poisonedHosts.filter (fun p => decide (p.1 = B)) = [] := by
    rw [List.filter_eq_nil]
    intro a ha
    simp only [decide_eq_true_eq]
    intro h
    refine hph0 a.2 ?_
    rw [← h]
    simpa using ha
  rw [hsplit, List.foldl_append, List.foldl_cons]
  have hK1 := ldScan_keep P B s.forwarding_table hwf l1 hB1
    (s.forwarding_table, s.removedHosts, s.poisonedHosts) (fun kv h => h)
  set acc1 := l1.foldl (ldStep P)
    (s.forwarding_table, s.removedHosts, s.poisonedHosts) with hacc1
  have hKB := ldStep_atB P B s.forwarding_table hwf acc1 hK1.1 e
    (by rw [hK1.2.1]; exact he) hep
    (by rw [hK1.2.2.1]; exact hfilr)
    (by rw [hK1.2.2.2]; exact hfilp)
  have hK2 := ldScan_keep P B s.forwarding_table hwf l2 hB2
    (ldStep P acc1 B) hKB.1
  constructor
  · rw [hK2.2.2.1, hKB.2.1]
  · rw [hK2.2.2.2, hKB.2.2]

theorem send_routes_sends_eq (force : Bool) (r : Router)
    (h : r.poison_mode = true) :
    (send_routes force r).2
      = (remLoop force r.forwarding_table r.poisonedHosts
          r.removedFromPoisonedHosts r.trickledHosts
          (r.peer_tables.map Prod.fst) r.removedHosts
          ⟨(mainLoop r force).1, r.emptyFwdTableList, [],
            (mainLoop r force).2⟩).sends := by
  unfold send_routes
  dsimp only
  rw [h, if_pos rfl]

/-- C4 counterexample: from the reachable re-withdrawal state sC4x (an
earlier withdrawal of B via port 1 already sits in
removedFromPoisonedHosts and B has since been re-learned via port 2), a
link-down on port 2 removes B's only route and leaves ports 1 and 3
active, yet the triggered pass poisons B only on port 3: the
removedFromPoisonedHosts guard (dv_router.py line 282) suppresses the
RoutePacket (B, 16) on port 1, refuting the claim that every remaining
active port receives the withdrawal. -/
theorem C4_linkdown_poison_cex :
    sC4x.poison_mode = true ∧
    lookupA sC4x.forwarding_table "B" = some ⟨"B", 2, 2⟩ ∧
    (∀ pp ∈ sC4x.peer_tables, pp.1 ≠ 2 → lookupA pp.2 "B" = none) ∧
    (handle_link_down sC4x 2).1.peer_tables.map Prod.fst = [1, 3] ∧
    lookupA (handle_link_down sC4x 2).1.forwarding_table "B" = none ∧
    (handle_link_down sC4x 2).2 = [(3, "B", 16)] ∧
    (handle_link_down sC4x 2).2.filter (fun t => decide (t.2.1 = "B"))
      ≠ ((handle_link_down sC4x 2).1.peer_tables.map Prod.fst).map
          (fun q => (q, "B", INFINITY)) := by
  refine ⟨rfl, by decide, by decide, by decide, by decide, by decide, by decide⟩

/-- C4 amended: in poison mode, when the link on port P goes down while
the forwarding table's route for destination B egresses via P, B has no
remaining route in any other peer table, AND this is B's first
withdrawal (B appears in none of the removedHosts, poisonedHosts,
removedFromPoisonedHosts and trickledHosts bookkeeping lists), then
handle_link_down leaves B absent from the rebuilt forwarding table and
the advertisement pass it triggers transmits exactly one RoutePacket
(B, INFINITY) on every remaining active port, in port order.  The
first-withdrawal proviso is forced by the counterexample: on a
re-withdrawal the removedFromPoisonedHosts guard suppresses the poison
on some active ports.  The key-uniqueness hypotheses are the invariants
of the source's dicts, and the dst field of a forwarding entry always
equals its key in tables the source builds. -/
theorem C4_linkdown_poison_broadcast (s : Router) (P : Nat) (B : String)
    (e : ForwardingTableEntry)
    (hpois : s.poison_mode = true)
    (hpk : (s.peer_tables.map Prod.fst).Nodup)
    (hfk : (s.forwarding_table.map Prod.fst).Nodup)
    (hwf : ∀ kv ∈ s.forwarding_table, kv.2.dst = kv.1)
    (he : lookupA s.forwarding_table B = some e) (hep : e.port = P)
    (hnr : ∀ pp ∈ s.peer_tables, pp.1 ≠ P → lookupA pp.2 B = none)
    (hrem : ∀ q, (B, q) ∉ s.removedHosts)
    (hph0 : ∀ q, (B, q) ∉ s.poisonedHosts)
    (hrfp : ∀ q, (B, q) ∉ s.removedFromPoisonedHosts)
    (htr : ∀ q, (B, q) ∉ s.trickledHosts) :
    lookupA (handle_link_down s P).1.forwarding_table B = none ∧
    (handle_link_down s P).2.filter (fun t => decide (t.2.1 = B))
      = ((handle_link_down s P).1.peer_tables.map Prod.fst).map
          (fun q => (q, B, INFINITY)) := by
  have key : ∀ (r2 : Router),
      r2.poison_mode = true →
      lookupA r2.forwarding_table B = none →
      (∀ q ∈ r2.peer_tables.map Prod.fst, lookupA r2.history (q, B) = none) →
      r2.removedHosts.filter (fun x => decide (x.1 = B)) = [(B, P)] →
      (B, P) ∈ r2.poisonedHosts →
      (∀ q, (B, q) ∉ r2.removedFromPoisonedHosts) →
      (∀ q, (B, q) ∉ r2.trickledHosts) →
      (r2.peer_tables.map Prod.fst).Nodup →
      lookupA (send_routes false r2).1.forwarding_table B = none ∧
      (send_routes false r2).2.filter (fun t => decide (t.2.1 = B))
        = ((send_routes false r2).1.peer_tables.map Prod.fst).map
            (fun q => (q, B, INFINITY)) := by
    intro r2 h1 h2 h3 h4 h5 h6 h7 h8
    constructor
    · rw [(send_routes_keeps false r2).2.1]
      exact h2
    · rw [send_routes_sends_eq false r2 h1, (send_routes_keeps false r2).1]
      have hm : ∀ q ∈ r2.peer_tables.map Prod.fst,
          lookupA (⟨(mainLoop r2 false).1, r2.emptyFwdTableList, [],
            (mainLoop r2 false).2⟩ : PassSt).history (q, B) = none := by
        intro q hq
        show lookupA (mainLoop r2 false).1 (q, B) = none
        rw [mainLoop_hist_other r2 false (q, B) ?_]
        · exact h3 q hq
        · intro kv hkv hk
          have hkB : kv.1 = B := hk
          rw [lookupA_eq_none_iff] at h2
          exact h2 (hkB ▸ List.mem_map_of_mem Prod.fst hkv)
      have hrl := remLoop_linkdown B P r2.forwarding_table r2.poisonedHosts
        r2.removedFromPoisonedHosts r2.trickledHosts
        (r2.peer_tables.map Prod.fst) h8 h5 h6 h7 r2.removedHosts
        ⟨(mainLoop r2 false).1, r2.emptyFwdTableList, [], (mainLoop r2 false).2⟩
        h4 hm rfl
      rw [hrl]
      have hms : ((⟨(mainLoop r2 false).1, r2.emptyFwdTableList, [],
          (mainLoop r2 false).2⟩ : PassSt).sends).filter
            (fun t => decide (t.2.1 = B)) = [] :=
        mainLoop_sends_noB r2 false B h2
      rw [hms, List.nil_append]
  unfold handle_link_down
  dsimp only
  refine key _ hpois ?_ ?_ ?_ ?_ hrfp htr ?_
  · refine update_forwarding_table_none _ B ?_
    intro pp hpp
    by_cases hPS : (lookupA s.peer_tables P).isSome
    · rw [if_pos hPS] at hpp
      have := mem_eraseA hpp
      exact hnr pp this.1 this.2
    · rw [if_neg hPS] at hpp
      refine hnr pp hpp ?_
      intro hh
      have hsome : (lookupA s.peer_tables P).isSome = true :=
        (lookupA_isSome_iff s.peer_tables P).2
          (hh ▸ List.mem_map_of_mem Prod.fst hpp)
      exact hPS hsome
  · intro q hq
    have hscan := ldScan_full P B s hfk hwf e he hep hrem hph0
    have hmem : (B, P) ∈ ((s.forwarding_table.map Prod.fst).foldl (ldStep P)
        (s.forwarding_table, s.removedHosts, s.poisonedHosts)).2.1 := by
      refine List.mem_of_mem_filter (p := fun p => decide (p.1 = B)) ?_
      rw [hscan.1]
      exact List.mem_singleton_self _
    have hqP : q ≠ P := by
      by_cases hPS : (lookupA s.peer_tables P).isSome
      · rw [if_pos hPS] at hq
        rcases List.mem_map.1 hq with ⟨pp, hpp, hppq⟩
        exact hppq ▸ (mem_eraseA hpp).2
      · rw [if_neg hPS] at hq
        intro hh
        rw [hh] at hq
        exact hPS ((lookupA_isSome_iff s.peer_tables P).2 hq)
    exact ldHist_kill B P _ s.history hmem q hqP
  · exact (ldScan_full P B s hfk hwf e he hep hrem hph0).1
  · refine List.mem_of_mem_filter (p := fun p => decide (p.1 = B)) ?_
    show (B, P) ∈ List.filter (fun p => decide (p.1 = B))
      ((s.forwarding_table.map Prod.fst).foldl (ldStep P)
        (s.forwarding_table, s.removedHosts, s.poisonedHosts)).2.2
    rw [(ldScan_full P B s hfk hwf e he hep hrem hph0).2]
    exact List.mem_singleton_self _
  · by_cases hPS : (lookupA s.peer_tables P).isSome
    · rw [if_pos hPS]
      exact keys_eraseA_nodup s.peer_tables P hpk
    · rw [if_neg hPS]
      exact hpk

theorem C4_linkdown_poison_broadcast_witness :
    (wC4.poison_mode = true) ∧
    ((wC4.peer_tables.map Prod.fst).Nodup) ∧
    ((wC4.forwarding_table.map Prod.fst).Nodup) ∧
    (∀ kv ∈ wC4.forwarding_table, kv.2.dst = kv.1) ∧
    (lookupA wC4.forwarding_table "B" = some ⟨"B", 1, 3⟩) ∧
    ((⟨"B", 1, 3⟩ : ForwardingTableEntry).port = 1) ∧
    (∀ pp ∈ wC4.peer_tables, pp.1 ≠ 1 → lookupA pp.2 "B" = none) ∧
    (∀ q : Nat, ("B", q) ∉ wC4.removedHosts) ∧
    (∀ q : Nat, ("B", q) ∉ wC4.poisonedHosts) ∧
    (∀ q : Nat, ("B", q) ∉ wC4.removedFromPoisonedHosts) ∧
    (∀ q : Nat, ("B", q) ∉ wC4.trickledHosts) ∧
    (lookupA (handle_link_down wC4 1).1.forwarding_table "B" = none ∧
     (handle_link_down wC4 1).2.filter (fun t => decide (t.2.1 = "B"))
       = ((handle_link_down wC4 1).1.peer_tables.map Prod.fst).map
           (fun q => (q, "B", INFINITY))) :=
  ⟨by decide, by decide, by decide, by decide, by decide, by decide, by decide,
   fun q => List.not_mem_nil _, fun q => List.not_mem_nil _,
   fun q => List.not_mem_nil _, fun q => List.not_mem_nil _,
   C4_linkdown_poison_broadcast wC4 1 "B" ⟨"B", 1, 3⟩ (by decide) (by decide)
     (by decide) (by decide) (by decide) (by decide) (by decide)
     (fun q => List.not_mem_nil _) (fun q => List.not_mem_nil _)
     (fun q => List.not_mem_nil _) (fun q => List.not_mem_nil _)⟩

/-! Suppression lemmas: a second non-forced advertisement pass with no
intervening mutation transmits nothing (when emptyFwdTableList is empty
and the forwarding table has unique keys). -/

theorem insertA_lookup_mono {α β : Type} [DecidableEq α] (l : List (α × β))
    (a : α) (b : β) (k : α) (h : (lookupA l k).isSome) :
    (lookupA (insertA l a b) k).isSome := by
  by_cases hk : k = a
  · rw [hk, lookupA_insertA_self]
    rfl
  · rw [lookupA_insertA_ne l a k b hk]
    exact h

theorem mem_removeFirst {α : Type} [DecidableEq α] {l : List α} {a x : α}
    (h : x ∈ removeFirst l a) : x ∈ l := by
  induction l with
  | nil => cases h
  | cons y rest ih =>
    unfold removeFirst at h
    by_cases hy : y = a
    · rw [if_pos hy] at h
      exact List.mem_cons_of_mem _ h
    · rw [if_neg hy] at h
      rcases List.mem_cons.1 h with h | h
      · exact h ▸ List.mem_cons_self _ _
      · exact List.mem_cons_of_mem _ (ih h)

theorem finalLoop_mem_pois (removed : List (String × Nat)) :
    ∀ (fuel i : Nat) (pois rfp : List (String × Nat)) (x : String × Nat),
      x ∈ (finalLoop removed fuel i pois rfp).1 → x ∈ pois := by
  intro fuel
  induction fuel with
  | zero => intro i pois rfp x h; exact h
  | succ fuel ih =>
    intro i pois rfp x h
    unfold finalLoop at h
    by_cases hi : i < pois.length
    · rw [dif_pos hi] at h
      dsimp only at h
      by_cases hm : pois[i] ∈ removed
      · rw [if_pos hm] at h
        exact mem_removeFirst (ih _ _ _ x h)
      · rw [if_neg hm] at h
        exact ih _ _ _ x h
    · rw [dif_neg hi] at h
      exact h

theorem remPortsLoop_false_keeps (fwd : ForwardingTable)
    (ph rfp tr : List (String × Nat)) (rem : String × Nat) :
    ∀ (ports : List Nat) (st : PassSt),
      (remPortsLoop false fwd ph rfp tr rem ports st).tempList = st.tempList ∧
      (remPortsLoop false fwd ph rfp tr rem ports st).emptyFwdTableList
        = st.emptyFwdTableList := by
  intro ports
  induction ports with
  | nil => intro st; exact ⟨rfl, rfl⟩
  | cons p rest ih =>
    intro st
    unfold remPortsLoop
    rw [remPortStep_false]
    by_cases hm : rem ∈ ph
    · rw [if_pos hm]
      dsimp only
      rw [if_neg Bool.false_ne_true]
      have hk := sendBlock_keeps rfp tr p rem.1 st
      have hr := ih (sendBlock rfp tr p rem.1 st)
      exact ⟨hr.1.trans hk.1, hr.2.trans hk.2⟩
    · rw [if_neg hm]
      dsimp only
      rw [if_pos rfl]
      exact ⟨rfl, rfl⟩

theorem remLoop_false_keeps (fwd : ForwardingTable)
    (ph rfp tr : List (String × Nat)) (ports : List Nat) :
    ∀ (rems : List (String × Nat)) (st : PassSt),
      (remLoop false fwd ph rfp tr ports rems st).tempList = st.tempList ∧
      (remLoop false fwd ph rfp tr ports rems st).emptyFwdTableList
        = st.emptyFwdTableList := by
  intro rems
  induction rems with
  | nil => intro st; exact ⟨rfl, rfl⟩
  | cons rem rest ih =>
    intro st
    unfold remLoop
    have hp := remPortsLoop_false_keeps fwd ph rfp tr rem ports st
    have hr := ih (remPortsLoop false fwd ph rfp tr rem ports st)
    exact ⟨hr.1.trans hp.1, hr.2.trans hp.2⟩

theorem send_routes_false_emptyFwd (r : Router) :
    (send_routes false r).1.emptyFwdTableList = r.emptyFwdTableList := by
  unfold send_routes
  dsimp only
  by_cases hp : r.poison_mode
  · rw [if_pos hp]
    exact (remLoop_false_keeps r.forwarding_table r.poisonedHosts
      r.removedFromPoisonedHosts r.trickledHosts (r.peer_tables.map Prod.fst)
      r.removedHosts _).2
  · rw [if_neg hp]

theorem remPortsLoop_false_hist_mono (fwd : ForwardingTable)
    (ph rfp tr : List (String × Nat)) (rem : String × Nat) :
    ∀ (ports : List Nat) (st : PassSt), st.emptyFwdTableList = [] →
      ∀ k : Nat × String, (lookupA st.history k).isSome →
      lookupA (remPortsLoop false fwd ph rfp tr rem ports st).history k
        = lookupA st.history k := by
  intro ports
  induction ports with
  | nil => intro st _ k _; rfl
  | cons p rest ih =>
    intro st hef k hk
    unfold remPortsLoop
    rw [remPortStep_false]
    by_cases hm : rem ∈ ph
    · rw [if_pos hm]
      dsimp only
      rw [if_neg Bool.false_ne_true]
      rcases sendBlock_cases rfp tr p rem.1 st with hsb | hsb
      · rw [hsb]
        exact ih st hef k hk
      · have hcond : (lookupA st.history (p, rem.1)).isNone := by
          unfold sendBlock at hsb
          by_cases hc : (lookupA st.history (p, rem.1)).isNone ∨
              ¬st.emptyFwdTableList.isEmpty
          · rcases hc with hc | hc
            · exact hc
            · exfalso
              rw [hef] at hc
              exact hc rfl
          · rw [if_neg hc] at hsb
            exfalso
            have : st.sends = st.sends ++ [(p, rem.1, INFINITY)] := by
              conv_lhs => rw [hsb]
            simp at this
        have hne : k ≠ (p, rem.1) := by
          intro hh
          rw [hh] at hk
          rw [Option.isNone_iff_eq_none] at hcond
          rw [hcond] at hk
          cases hk
        have hlk : lookupA (sendBlock rfp tr p rem.1 st).history k
            = lookupA st.history k := by
          rw [hsb]
          dsimp only
          exact lookupA_insertA_ne st.history (p, rem.1) k _ hne
        rw [ih _ (by rw [(sendBlock_keeps rfp tr p rem.1 st).2, hef]) k
          (by rw [hlk]; exact hk), hlk]
    · rw [if_neg hm]
      dsimp only
      rw [if_pos rfl]

theorem remLoop_false_hist_mono (fwd : ForwardingTable)
    (ph rfp tr : List (String × Nat)) (ports : List Nat) :
    ∀ (rems : List (String × Nat)) (st : PassSt),
      st.emptyFwdTableList = [] →
      ∀ k : Nat × String, (lookupA st.history k).isSome →
      lookupA (remLoop false fwd ph rfp tr ports rems st).history k
        = lookupA st.history k := by
  intro rems
  induction rems with
  | nil => intro st _ k _; rfl
  | cons rem rest ih =>
    intro st hef k hk
    unfold remLoop
    have h1 := remPortsLoop_false_hist_mono fwd ph rfp tr rem ports st hef k hk
    have hef2 := (remPortsLoop_false_keeps fwd ph rfp tr rem ports st).2.trans hef
    rw [ih _ hef2 k (by rw [h1]; exact hk), h1]

theorem sendIf_good (st : History × List Sent) (port : Nat) (key : String)
    (cost : Int) (force : Bool) :
    ∃ v, lookupA (sendIf st port key cost force).1 (port, key) = some v ∧
      v.dst = key ∧ v.latency = cost := by
  unfold sendIf
  split_ifs with hf
  · cases hlk : lookupA st.1 (port, key) with
    | none =>
      exact ⟨⟨key, port, cost⟩, lookupA_insertA_self st.1 (port, key) _, rfl, rfl⟩
    | some v =>
      dsimp only
      split_ifs with hcond
      · exact ⟨⟨key, port, cost⟩, lookupA_insertA_self st.1 (port, key) _, rfl, rfl⟩
      · push_neg at hcond
        exact ⟨v, hlk, hcond.1, hcond.2⟩
  · exact ⟨⟨key, port, cost⟩, lookupA_insertA_self st.1 (port, key) _, rfl, rfl⟩

theorem mainStep_good (poison force : Bool) (q : Nat)
    (st : History × List Sent) (ki : String × ForwardingTableEntry) :
    histGood poison (mainStep poison force q st ki).1 q ki := by
  unfold mainStep histGood
  dsimp only
  by_cases hp : poison
  · rw [if_pos hp]
    by_cases hq : q = ki.2.port
    · rw [if_pos hq]
      exact ⟨fun _ _ => sendIf_good st q ki.1 INFINITY force,
        fun hne => absurd hq hne⟩
    · rw [if_neg hq]
      exact ⟨fun _ hh => absurd hh hq,
        fun _ => sendIf_good st q ki.1 ki.2.latency force⟩
  · rw [if_neg hp]
    by_cases hq : q ≠ ki.2.port
    · rw [if_pos hq]
      exact ⟨fun hpois _ => absurd hpois hp,
        fun _ => sendIf_good st q ki.1 ki.2.latency force⟩
    · rw [if_neg hq]
      exact ⟨fun hpois _ => absurd hpois hp, fun hne => absurd hne hq⟩

theorem mainStep_good_preserve (poison force : Bool) (q p2 : Nat)
    (st : History × List Sent) (ki kv : String × ForwardingTableEntry)
    (hne : (p2, ki.1) ≠ (q, kv.1)) (hg : histGood poison st.1 q kv) :
    histGood poison (mainStep poison force p2 st ki).1 q kv := by
  have hl : lookupA (mainStep poison force p2 st ki).1 (q, kv.1)
      = lookupA st.1 (q, kv.1) := by
    rcases mainStep_hist poison force p2 st ki with h | h | h
    · rw [h]
    · rw [h]
      exact lookupA_insertA_ne st.1 (p2, ki.1) (q, kv.1) _ (fun hh => hne hh.symm)
    · rw [h]
      exact lookupA_insertA_ne st.1 (p2, ki.1) (q, kv.1) _ (fun hh => hne hh.symm)
  unfold histGood at hg ⊢
  rw [hl]
  exact hg

theorem mainInner_good_preserve (poison force : Bool) (q : Nat)
    (kv : String × ForwardingTableEntry) :
    ∀ (l : ForwardingTable), (∀ ki ∈ l, ki.1 ≠ kv.1) →
    ∀ st : History × List Sent, histGood poison st.1 q kv →
      histGood poison (l.foldl (mainStep poison force q) st).1 q kv := by
  intro l
  induction l with
  | nil => intro _ st hg; exact hg
  | cons ki rest ih =>
    intro hmem st hg
    rw [List.foldl_cons]
    refine ih (fun x hx => hmem x (List.mem_cons_of_mem _ hx)) _ ?_
    refine mainStep_good_preserve poison force q q st ki kv ?_ hg
    intro hh
    exact hmem ki (List.mem_cons_self _ _) (congrArg Prod.snd hh)

theorem mainInner_good (poison force : Bool) (q : Nat) :
    ∀ (fwd : ForwardingTable), (fwd.map Prod.fst).Nodup →
    ∀ (st : History × List Sent) (kv : String × ForwardingTableEntry),
      kv ∈ fwd →
      histGood poison (fwd.foldl (mainStep poison force q) st).1 q kv := by
  intro fwd
  induction fwd with
  | nil => intro _ st kv h; cases h
  | cons ki rest ih =>
    intro hnd st kv hkv
    simp only [List.map_cons, List.nodup_cons] at hnd
    rw [List.foldl_cons]
    rcases List.mem_cons.1 hkv with h | h
    · subst h
      refine mainInner_good_preserve poison force q kv rest ?_ _
        (mainStep_good poison force q st kv)
      intro ki' hki' hh
      exact hnd.1 (hh ▸ List.mem_map_of_mem Prod.fst hki')
    · exact ih hnd.2 _ kv h

theorem mainInner_hist_other_port (poison force : Bool) (p2 : Nat)
    (k : Nat × String) (hpq : p2 ≠ k.1) :
    ∀ (l : ForwardingTable) (st : History × List Sent),
      lookupA (l.foldl (mainStep poison force p2) st).1 k
        = lookupA st.1 k := by
  intro l
  induction l with
  | nil => intro st; rfl
  | cons ki rest ih =>
    intro st
    rw [List.foldl_cons, ih _]
    rcases mainStep_hist poison force p2 st ki with h | h | h
    · rw [h]
    · rw [h]
      exact lookupA_insertA_ne st.1 (p2, ki.1) k _
        (fun hh => hpq (congrArg Prod.fst hh).symm)
    · rw [h]
      exact lookupA_insertA_ne st.1 (p2, ki.1) k _
        (fun hh => hpq (congrArg Prod.fst hh).symm)

theorem mainOuter_good_preserve (r : Router) (force : Bool) (q : Nat)
    (kv : String × ForwardingTableEntry) (hkv : kv ∈ r.forwarding_table)
    (hnd : (r.forwarding_table.map Prod.fst).Nodup) :
    ∀ (pts : List (Nat × PeerTable)) (st : History × List Sent),
      histGood r.poison_mode st.1 q kv →
      histGood r.poison_mode
        (pts.foldl (fun st pp =>
          r.forwarding_table.foldl (mainStep r.poison_mode force pp.1) st) st).1
        q kv := by
  intro pts
  induction pts with
  | nil => intro st hg; exact hg
  | cons pp rest ih =>
    intro st hg
    rw [List.foldl_cons]
    refine ih _ ?_
    by_cases hq : pp.1 = q
    · rw [hq]
      exact mainInner_good r.poison_mode force q r.forwarding_table hnd st kv hkv
    · have hl := mainInner_hist_other_port r.poison_mode force pp.1 (q, kv.1)
        hq r.forwarding_table st
      unfold histGood at hg ⊢
      rw [hl]
      exact hg

theorem mainLoop_good (r : Router) (force : Bool)
    (hnd : (r.forwarding_table.map Prod.fst).Nodup) :
    ∀ pp ∈ r.peer_tables, ∀ kv ∈ r.forwarding_table,
      histGood r.poison_mode (mainLoop r force).1 pp.1 kv := by
  unfold mainLoop
  have haux : ∀ (pts : List (Nat × PeerTable)) (st : History × List Sent),
      ∀ pp ∈ pts, ∀ kv ∈ r.forwarding_table,
      histGood r.poison_mode
        (pts.foldl (fun st pp =>
          r.forwarding_table.foldl (mainStep r.poison_mode force pp.1) st) st).1
        pp.1 kv := by
    intro pts
    induction pts with
    | nil => intro st pp h; cases h
    | cons pp0 rest ih =>
      intro st pp hpp kv hkv
      rcases List.mem_cons.1 hpp with h | h
      · subst h
        rw [List.foldl_cons]
        refine mainOuter_good_preserve r force pp.1 kv hkv hnd rest _ ?_
        exact mainInner_good r.poison_mode force pp.1 r.forwarding_table hnd
          st kv hkv
      · rw [List.foldl_cons]
        exact ih _ pp h kv hkv
  intro pp hpp kv hkv
  exact haux r.peer_tables (r.history, []) pp hpp kv hkv

theorem sendIf_skip (st : History × List Sent) (port : Nat) (key : String)
    (cost : Int) (v : ForwardingTableEntry)
    (hv : lookupA st.1 (port, key) = some v) (hd : v.dst = key)
    (hl : v.latency = cost) :
    sendIf st port key cost false = st := by
  unfold sendIf
  rw [if_pos rfl, hv]
  dsimp only
  rw [if_neg (by simp [hd, hl])]

theorem mainStep_id (poison : Bool) (q : Nat) (st : History × List Sent)
    (kv : String × ForwardingTableEntry)
    (hg : histGood poison st.1 q kv) :
    mainStep poison false q st kv = st := by
  unfold mainStep
  dsimp only
  by_cases hp : poison = true
  · rw [if_pos hp]
    by_cases hq : q = kv.2.port
    · rw [if_pos hq]
      obtain ⟨v, hv, hd, hl⟩ := hg.1 hp hq
      exact sendIf_skip st q kv.1 INFINITY v hv hd hl
    · rw [if_neg hq]
      obtain ⟨v, hv, hd, hl⟩ := hg.2 hq
      exact sendIf_skip st q kv.1 kv.2.latency v hv hd hl
  · rw [if_neg hp]
    by_cases hq : q ≠ kv.2.port
    · rw [if_pos hq]
      obtain ⟨v, hv, hd, hl⟩ := hg.2 hq
      exact sendIf_skip st q kv.1 kv.2.latency v hv hd hl
    · rw [if_neg hq]

theorem mainInner_id (poison : Bool) (q : Nat) :
    ∀ (l : ForwardingTable) (st : History × List Sent),
      (∀ kv ∈ l, histGood poison st.1 q kv) →
      l.foldl (mainStep poison false q) st = st := by
  intro l
  induction l with
  | nil => intro st _; rfl
  | cons kv rest ih =>
    intro st hg
    rw [List.foldl_cons,
      mainStep_id poison q st kv (hg kv (List.mem_cons_self _ _))]
    exact ih st (fun x hx => hg x (List.mem_cons_of_mem _ hx))

theorem mainLoop_id (r : Router)
    (hg : ∀ pp ∈ r.peer_tables, ∀ kv ∈ r.forwarding_table,
      histGood r.poison_mode r.history pp.1 kv) :
    mainLoop r false = (r.history, []) := by
  unfold mainLoop
  have haux : ∀ (pts : List (Nat × PeerTable)),
      (∀ pp ∈ pts, ∀ kv ∈ r.forwarding_table,
        histGood r.poison_mode r.history pp.1 kv) →
      ∀ (s : List Sent),
      pts.foldl (fun st pp =>
        r.forwarding_table.foldl (mainStep r.poison_mode false pp.1) st)
        (r.history, s) = (r.history, s) := by
    intro pts
    induction pts with
    | nil => intro _ s; rfl
    | cons pp rest ih =>
      intro hgs s
      rw [List.foldl_cons,
        mainInner_id r.poison_mode pp.1 r.forwarding_table (r.history, s)
          (fun kv hkv => hgs pp (List.mem_cons_self _ _) kv hkv)]
      exact ih (fun x hx => hgs x (List.mem_cons_of_mem _ hx)) s
  exact haux r.peer_tables hg []

theorem finalLoop_rfp_mono (removed : List (String × Nat)) :
    ∀ (fuel i : Nat) (pois rfp : List (String × Nat)) (x : String × Nat),
      x ∈ rfp → x ∈ (finalLoop removed fuel i pois rfp).2 := by
  intro fuel
  induction fuel with
  | zero => intro i pois rfp x h; exact h
  | succ fuel ih =>
    intro i pois rfp x h
    unfold finalLoop
    by_cases hi : i < pois.length
    · rw [dif_pos hi]
      dsimp only
      by_cases hm : pois[i] ∈ removed
      · rw [if_pos hm]
        exact ih _ _ _ x (List.mem_append_left _ h)
      · rw [if_neg hm]
        exact ih _ _ _ x h
    · rw [dif_neg hi]
      exact h

theorem remPortsLoop_false_establish (fwd : ForwardingTable)
    (ph rfp tr : List (String × Nat)) (rem : String × Nat) (hph : rem ∈ ph) :
    ∀ (ports : List Nat) (st : PassSt),
      st.tempList = [] → st.emptyFwdTableList = [] →
      ∀ q ∈ ports,
        (lookupA (remPortsLoop false fwd ph rfp tr rem ports st).history
          (q, rem.1)).isSome = true ∨
        (rem.1, q) ∈ rfp ∨ (rem.1, q) ∈ tr := by
  intro ports
  induction ports with
  | nil => intro st _ _ q hq; cases hq
  | cons p rest ih =>
    intro st htl hef q hq
    unfold remPortsLoop
    rw [remPortStep_false, if_pos hph]
    dsimp only
    rw [if_neg Bool.false_ne_true]
    have hk := sendBlock_keeps rfp tr p rem.1 st
    rcases List.mem_cons.1 hq with hqp | hqr
    · subst hqp
      by_cases h2 : (rem.1, q) ∈ rfp
      · exact Or.inr (Or.inl h2)
      by_cases h3 : (rem.1, q) ∈ tr
      · exact Or.inr (Or.inr h3)
      refine Or.inl ?_
      have hss : (lookupA (sendBlock rfp tr q rem.1 st).history
          (q, rem.1)).isSome = true := by
        by_cases hc : (lookupA st.history (q, rem.1)).isNone ∨
            ¬st.emptyFwdTableList.isEmpty
        · rw [sendBlock_fires rfp tr q rem.1 st hc
            (by rw [htl]; exact List.not_mem_nil _) h2 h3]
          dsimp only
          rw [lookupA_insertA_self]
          rfl
        · rw [sendBlock_skip rfp tr q rem.1 st hc]
          cases hl : lookupA st.history (q, rem.1) with
          | none =>
            exfalso
            exact hc (Or.inl (by rw [hl]; rfl))
          | some v => rfl
      rw [remPortsLoop_false_hist_mono fwd ph rfp tr rem rest
        (sendBlock rfp tr q rem.1 st) (hk.2.trans hef) (q, rem.1) hss]
      exact hss
    · exact ih (sendBlock rfp tr p rem.1 st) (hk.1.trans htl)
        (hk.2.trans hef) q hqr

theorem remLoop_false_establish (fwd : ForwardingTable)
    (ph rfp tr : List (String × Nat)) (ports : List Nat) :
    ∀ (rems : List (String × Nat)) (st : PassSt),
      st.tempList = [] → st.emptyFwdTableList = [] →
      ∀ rem ∈ rems, rem ∈ ph → ∀ q ∈ ports,
        (lookupA (remLoop false fwd ph rfp tr ports rems st).history
          (q, rem.1)).isSome = true ∨
        (rem.1, q) ∈ rfp ∨ (rem.1, q) ∈ tr := by
  intro rems
  induction rems with
  | nil => intro st _ _ rem h; cases h
  | cons rem0 rest ih =>
    intro st htl hef rem hrem hphm q hq
    unfold remLoop
    have hk := remPortsLoop_false_keeps fwd ph rfp tr rem0 ports st
    rcases List.mem_cons.1 hrem with h | h
    · subst h
      rcases remPortsLoop_false_establish fwd ph rfp tr rem hphm ports st
        htl hef q hq with hs | hs
      · refine Or.inl ?_
        rw [remLoop_false_hist_mono fwd ph rfp tr ports rest
          (remPortsLoop false fwd ph rfp tr rem ports st)
          (hk.2.trans hef) (q, rem.1) hs]
        exact hs
      · exact Or.inr hs
    · exact ih (remPortsLoop false fwd ph rfp tr rem0 ports st)
        (hk.1.trans htl) (hk.2.trans hef) rem h hphm q hq

theorem remPortsLoop_false_id (fwd : ForwardingTable)
    (ph rfp tr : List (String × Nat)) (rem : String × Nat) :
    ∀ (ports : List Nat) (st : PassSt), st.emptyFwdTableList = [] →
      (rem ∈ ph → ∀ q ∈ ports,
        (lookupA st.history (q, rem.1)).isSome = true ∨
        (rem.1, q) ∈ rfp ∨ (rem.1, q) ∈ tr) →
      remPortsLoop false fwd ph rfp tr rem ports st = st := by
  intro ports
  induction ports with
  | nil => intro st _ _; rfl
  | cons p rest ih =>
    intro st hef hq
    unfold remPortsLoop
    rw [remPortStep_false]
    by_cases hm : rem ∈ ph
    · rw [if_pos hm]
      dsimp only
      rw [if_neg Bool.false_ne_true]
      have hsb : sendBlock rfp tr p rem.1 st = st := by
        rcases hq hm p (List.mem_cons_self _ _) with h | h | h
        · refine sendBlock_skip rfp tr p rem.1 st ?_
          intro hc
          rcases hc with hc | hc
          · rw [Option.isNone_iff_eq_none] at hc
            rw [hc] at h
            cases h
          · rw [hef] at hc
            exact hc rfl
        · exact sendBlock_guard rfp tr p rem.1 st (Or.inr (Or.inl h))
        · exact sendBlock_guard rfp tr p rem.1 st (Or.inr (Or.inr h))
      rw [hsb]
      exact ih st hef (fun hm2 q hq2 => hq hm2 q (List.mem_cons_of_mem _ hq2))
    · rw [if_neg hm]
      dsimp only
      rw [if_pos rfl]

theorem remLoop_false_id (fwd : ForwardingTable)
    (ph rfp tr : List (String × Nat)) (ports : List Nat) :
    ∀ (rems : List (String × Nat)) (st : PassSt),
      st.emptyFwdTableList = [] →
      (∀ rem ∈ rems, rem ∈ ph → ∀ q ∈ ports,
        (lookupA st.history (q, rem.1)).isSome = true ∨
        (rem.1, q) ∈ rfp ∨ (rem.1, q) ∈ tr) →
      remLoop false fwd ph rfp tr ports rems st = st := by
  intro rems
  induction rems with
  | nil => intro st _ _; rfl
  | cons rem0 rest ih =>
    intro st hef hq
    unfold remLoop
    have hps : remPortsLoop false fwd ph rfp tr rem0 ports st = st :=
      remPortsLoop_false_id fwd ph rfp tr rem0 ports st hef
        (fun hm => hq rem0 (List.mem_cons_self _ _) hm)
    rw [hps]
    exact ih st hef (fun x hx => hq x (List.mem_cons_of_mem _ hx))

theorem histGood_mono (poison : Bool) (h1 h2 : History) (q : Nat)
    (kv : String × ForwardingTableEntry)
    (heq : ∀ v, lookupA h1 (q, kv.1) = some v → lookupA h2 (q, kv.1) = some v)
    (hg : histGood poison h1 q kv) : histGood poison h2 q kv := by
  unfold histGood at hg ⊢
  constructor
  · intro a b
    obtain ⟨v, hv, hd, hl⟩ := hg.1 a b
    exact ⟨v, heq v hv, hd, hl⟩
  · intro a
    obtain ⟨v, hv, hd, hl⟩ := hg.2 a
    exact ⟨v, heq v hv, hd, hl⟩

theorem send_routes_false_good (r : Router)
    (hef : r.emptyFwdTableList = [])
    (hnd : (r.forwarding_table.map Prod.fst).Nodup) :
    ∀ pp ∈ r.peer_tables, ∀ kv ∈ r.forwarding_table,
      histGood r.poison_mode (send_routes false r).1.history pp.1 kv := by
  intro pp hpp kv hkv
  have hgm := mainLoop_good r false hnd pp hpp kv hkv
  unfold send_routes
  dsimp only
  by_cases hp : r.poison_mode
  · rw [if_pos hp]
    refine histGood_mono r.poison_mode (mainLoop r false).1 _ pp.1 kv ?_ hgm
    intro v hv
    rw [remLoop_false_hist_mono r.forwarding_table r.poisonedHosts
      r.removedFromPoisonedHosts r.trickledHosts (r.peer_tables.map Prod.fst)
      r.removedHosts ⟨(mainLoop r false).1, r.emptyFwdTableList, [],
        (mainLoop r false).2⟩ hef (pp.1, kv.1) (by rw [hv]; rfl)]
    exact hv
  · rw [if_neg hp]
    exact hgm

theorem send_routes_sends_eq_nopoison (force : Bool) (r : Router)
    (h : r.poison_mode = false) :
    (send_routes force r).2 = (mainLoop r force).2 := by
  unfold send_routes
  dsimp only
  rw [h, if_neg Bool.false_ne_true]

theorem send_routes_false_hist_poison (r : Router) (hp : r.poison_mode = true) :
    (send_routes false r).1.history
      = (remLoop false r.forwarding_table r.poisonedHosts
          r.removedFromPoisonedHosts r.trickledHosts
          (r.peer_tables.map Prod.fst) r.removedHosts
          ⟨(mainLoop r false).1, r.emptyFwdTableList, [],
            (mainLoop r false).2⟩).history := by
  unfold send_routes
  dsimp only
  rw [hp, if_pos rfl]

theorem send_routes_false_pois (r : Router) (hp : r.poison_mode = true) :
    (send_routes false r).1.poisonedHosts
      = (finalLoop r.removedHosts (r.poisonedHosts.length + 1) 0
          r.poisonedHosts r.removedFromPoisonedHosts).1 ∧
    (send_routes false r).1.removedFromPoisonedHosts
      = (finalLoop r.removedHosts (r.poisonedHosts.length + 1) 0
          r.poisonedHosts r.removedFromPoisonedHosts).2 := by
  unfold send_routes
  dsimp only
  rw [if_pos (show r.poison_mode = true ∧ (false : Bool) = false
    from ⟨hp, rfl⟩)]
  exact ⟨rfl, rfl⟩

/-- C5: a second consecutive non-forced send_routes call transmits
nothing.  This holds as claimed whenever the emptyFwdTableList bookkeeping
list is empty (as it always is until a forced advertisement pass runs on
an empty forwarding table) and the forwarding-table keys are unique (the
dict invariant): the first call records every advertisement in history,
so the main loop of the second call is fully suppressed, and every
removed-host poisoning either finds its INFINITY record in history or is
blocked by the removedFromPoisonedHosts/trickledHosts guards. -/
theorem C5_suppression_amended (r : Router)
    (hef : r.emptyFwdTableList = [])
    (hnd : (r.forwarding_table.map Prod.fst).Nodup) :
    (send_routes false (send_routes false r).1).2 = [] := by
  have hg1 := send_routes_false_good r hef hnd
  have hml2 : mainLoop (send_routes false r).1 false
      = ((send_routes false r).1.history, []) :=
    mainLoop_id (send_routes false r).1 hg1
  have hef1 : (send_routes false r).1.emptyFwdTableList = [] :=
    (send_routes_false_emptyFwd r).trans hef
  by_cases hp : r.poison_mode = true
  · have hp1 : (send_routes false r).1.poison_mode = true := hp
    rw [send_routes_sends_eq false (send_routes false r).1 hp1, hml2]
    dsimp only
    have hQb : ∀ rem ∈ (send_routes false r).1.removedHosts,
        rem ∈ (send_routes false r).1.poisonedHosts →
        ∀ q ∈ (send_routes false r).1.peer_tables.map Prod.fst,
        (lookupA (send_routes false r).1.history (q, rem.1)).isSome = true ∨
        (rem.1, q) ∈ (send_routes false r).1.removedFromPoisonedHosts ∨
        (rem.1, q) ∈ (send_routes false r).1.trickledHosts := by
      intro rem hrem hphm q hq
      have hphm2 : rem ∈ r.poisonedHosts := by
        rw [(send_routes_false_pois r hp).1] at hphm
        exact finalLoop_mem_pois r.removedHosts _ _ _ _ rem hphm
      have hQ := remLoop_false_establish r.forwarding_table r.poisonedHosts
        r.removedFromPoisonedHosts r.trickledHosts
        (r.peer_tables.map Prod.fst) r.removedHosts
        ⟨(mainLoop r false).1, r.emptyFwdTableList, [],
          (mainLoop r false).2⟩ rfl hef rem hrem hphm2 q hq
      rcases hQ with hs | hs | hs
      · left
        rw [send_routes_false_hist_poison r hp]
        exact hs
      · right; left
        rw [(send_routes_false_pois r hp).2]
        exact finalLoop_rfp_mono r.removedHosts _ _ _ _ (rem.1, q) hs
      · right; right
        exact hs
    have hid := remLoop_false_id (send_routes false r).1.forwarding_table
      (send_routes false r).1.poisonedHosts
      (send_routes false r).1.removedFromPoisonedHosts
      (send_routes false r).1.trickledHosts
      ((send_routes false r).1.peer_tables.map Prod.fst)
      (send_routes false r).1.removedHosts
      ⟨(send_routes false r).1.history,
        (send_routes false r).1.emptyFwdTableList, [], []⟩
      hef1 hQb
    rw [hid]
  · have hp1 : (send_routes false r).1.poison_mode = false := by
      have hh : (send_routes false r).1.poison_mode = r.poison_mode := rfl
      rw [hh]
      revert hp
      cases r.poison_mode <;> simp
    rw [send_routes_sends_eq_nopoison false (send_routes false r).1 hp1, hml2]

theorem sendIf_true_snd (st : History × List Sent) (port : Nat) (key : String)
    (cost : Int) :
    (sendIf st port key cost true).2 = st.2 ++ [(port, key, cost)] := by
  unfold sendIf
  rw [if_neg (by simp)]

theorem mainStep_true_snd (poison : Bool) (q : Nat)
    (st : History × List Sent) (ki : String × ForwardingTableEntry) :
    (mainStep poison true q st ki).2
      = st.2 ++ (if poison then
          (if q = ki.2.port then [(q, ki.1, INFINITY)]
           else [(q, ki.1, ki.2.latency)])
         else if q ≠ ki.2.port then [(q, ki.1, ki.2.latency)] else []) := by
  unfold mainStep
  dsimp only
  by_cases hp : poison = true
  · rw [if_pos hp, if_pos hp]
    by_cases hq : q = ki.2.port
    · rw [if_pos hq, if_pos hq, sendIf_true_snd]
    · rw [if_neg hq, if_neg hq, sendIf_true_snd]
  · rw [if_neg hp, if_neg hp]
    by_cases hq : q ≠ ki.2.port
    · rw [if_pos hq, if_pos hq, sendIf_true_snd]
    · rw [if_neg hq, if_neg hq]
      simp

theorem mainInner_true_snd (poison : Bool) (q : Nat) :
    ∀ (l : ForwardingTable) (st st' : History × List Sent),
      st'.2 = st.2 →
      (l.foldl (mainStep poison true q) st').2
        = (l.foldl (mainStep poison true q) st).2 := by
  intro l
  induction l with
  | nil => intro st st' h; exact h
  | cons ki rest ih =>
    intro st st' h
    rw [List.foldl_cons, List.foldl_cons]
    refine ih _ _ ?_
    rw [mainStep_true_snd, mainStep_true_snd, h]

theorem mainOuter_true_snd (poison : Bool) (fwd : ForwardingTable) :
    ∀ (pts : List (Nat × PeerTable)) (st st' : History × List Sent),
      st'.2 = st.2 →
      (pts.foldl (fun st pp => fwd.foldl (mainStep poison true pp.1) st) st').2
        = (pts.foldl (fun st pp => fwd.foldl (mainStep poison true pp.1) st)
            st).2 := by
  intro pts
  induction pts with
  | nil => intro st st' h; exact h
  | cons pp rest ih =>
    intro st st' h
    rw [List.foldl_cons, List.foldl_cons]
    exact ih _ _ (mainInner_true_snd poison pp.1 fwd st st' h)

theorem mainLoop_true_snd (r r' : Router)
    (hpt : r'.peer_tables = r.peer_tables)
    (hft : r'.forwarding_table = r.forwarding_table)
    (hpm : r'.poison_mode = r.poison_mode) :
    (mainLoop r' true).2 = (mainLoop r true).2 := by
  unfold mainLoop
  rw [hpt, hft, hpm]
  exact mainOuter_true_snd r.poison_mode r.forwarding_table r.peer_tables
    (r.history, []) (r'.history, []) rfl

/-- C6: calling send_routes with force true twice in a row (no intervening
state change) transmits the same multiset of advertisements both times.
This holds as claimed (in fact the transmitted lists are equal) whenever
poison mode is off or no withdrawal is pending in removedHosts: the
forced main loop's transmissions depend only on the peer tables, the
forwarding table and the poison flag, all of which send_routes preserves,
and the removed-hosts pass is skipped in both calls. -/
theorem C6_force_idem_amended (r : Router)
    (h : r.poison_mode = false ∨ r.removedHosts = []) :
    (send_routes true (send_routes true r).1).2 = (send_routes true r).2 := by
  have hk := send_routes_keeps true r
  have hml : (mainLoop (send_routes true r).1 true).2 = (mainLoop r true).2 :=
    mainLoop_true_snd r (send_routes true r).1 hk.1 hk.2.1 hk.2.2.1
  by_cases hpm : r.poison_mode = true
  · have hrem : r.removedHosts = [] := by
      rcases h with h1 | h1
      · rw [hpm] at h1
        cases h1
      · exact h1
    have hpm1 : (send_routes true r).1.poison_mode = true := by
      rw [hk.2.2.1]
      exact hpm
    have hrem1 : (send_routes true r).1.removedHosts = [] := by
      rw [hk.2.2.2.2.1]
      exact hrem
    rw [send_routes_sends_eq true _ hpm1, send_routes_sends_eq true r hpm,
      hrem1, hrem]
    have h0 : ∀ (rr : Router),
        (remLoop true rr.forwarding_table rr.poisonedHosts
          rr.removedFromPoisonedHosts rr.trickledHosts
          (rr.peer_tables.map Prod.fst) ([] : List (String × Nat))
          ⟨(mainLoop rr true).1, rr.emptyFwdTableList, [],
            (mainLoop rr true).2⟩).sends
          = (mainLoop rr true).2 := fun rr => rfl
    rw [h0 (send_routes true r).1, h0 r]
    exact hml
  · have hpm0 : r.poison_mode = false := by
      revert hpm
      cases r.poison_mode <;> simp
    have hpm1 : (send_routes true r).1.poison_mode = false := by
      rw [hk.2.2.1]
      exact hpm0
    rw [send_routes_sends_eq_nopoison true _ hpm1,
      send_routes_sends_eq_nopoison true r hpm0]
    exact hml

theorem C6_force_idem_amended_witness :
    (wC6.poison_mode = false ∨ wC6.removedHosts = []) ∧
    (send_routes true (send_routes true wC6).1).2 = (send_routes true wC6).2 :=
  ⟨Or.inr rfl, C6_force_idem_amended wC6 (Or.inr rfl)⟩

theorem C5_suppression_amended_witness :
    (wC5.emptyFwdTableList = [] ∧
      (wC5.forwarding_table.map Prod.fst).Nodup) ∧
    (send_routes false (send_routes false wC5).1).2 = [] :=
  ⟨⟨rfl, by decide⟩, C5_suppression_amended wC5 rfl (by decide)⟩

end DV
